import Mathlib

/-!
Verification development for the RIFF/WAVE codec library.

Modelling conventions:
* JS `Blob` / `Uint8Array` contents are `List Nat` byte sequences; `Blob.slice`
  clamps out-of-range indices, which `sliceList` reproduces.
* JS strings that only ever hold binary/ASCII data (chunk ids, the container
  type tag, LIST entry text) are modelled as their byte sequences; for ASCII
  content the UTF-8 round trip through `.text()` / `TextEncoder` is the
  identity, so string length coincides with byte length.
* JS number arithmetic is modelled as exact rational arithmetic.  The
  quantization that happens when a number is stored into an integer typed
  array (truncation toward zero followed by a two's-complement wrap) and into
  a float typed array (IEEE round-to-nearest-even at the storage width) is
  modelled explicitly; the rounding of intermediate double-precision
  arithmetic is not.
* Fallible code returns `Except String`; the error strings carry the data of
  the corresponding JS error messages (indices and values in decimal rather
  than padded hex).
-/

namespace RiffWav

/-- Decidable equality of results, used to evaluate the model on inputs. -/
instance exceptDecEq {ε α : Type} [DecidableEq ε] [DecidableEq α] :
    DecidableEq (Except ε α) := fun x y =>
  match x, y with
  | .error a, .error b =>
    if h : a = b then .isTrue (by rw [h]) else .isFalse (by simp [h])
  | .ok a, .ok b =>
    if h : a = b then .isTrue (by rw [h]) else .isFalse (by simp [h])
  | .error _, .ok _ => .isFalse (by simp)
  | .ok _, .error _ => .isFalse (by simp)

/-- Byte sequences stand in for JS `Blob` / typed-array contents. -/
abbrev Bytes := List Nat

/-- Model of `blob.slice(s, e)`: the elements with indices in `[s, e)`,
clamped to the available range (as JS `Blob.slice` does). -/
def sliceList (l : Bytes) (s e : Nat) : Bytes := (l.drop s).take (e - s)

/-- Little-endian bytes of `n mod 2^32`, as stored by `new Uint32Array([n])`. -/
def u32le (n : Nat) : Bytes :=
  [n % 256, n / 256 % 256, n / 65536 % 256, n / 16777216 % 256]

/-- Little-endian bytes of `n mod 2^16`, as stored by `new Uint16Array([n])`. -/
def u16le (n : Nat) : Bytes := [n % 256, n / 256 % 256]

/-- The `RangeError` raised by `new Uint32Array(buf)` on a buffer whose byte
length is not a multiple of the element size. -/
def rangeError32 : String :=
  "RangeError: ArrayBuffer length minus the byteOffset is not a multiple of 4"

/-- Model of `new Uint32Array(buf)` followed by destructuring the first
element: a `RangeError` when the byte length is not a multiple of 4,
`undefined` (here `none`) when the buffer is empty, otherwise the first
four bytes read as an unsigned little-endian 32-bit value. -/
def readU32 (b : Bytes) : Except String (Option Nat) :=
  if b.length % 4 ≠ 0 then
    .error rangeError32
  else
    match b with
    | b0 :: b1 :: b2 :: b3 :: _ => .ok (some (b0 + 256 * b1 + 65536 * b2 + 16777216 * b3))
    | _ => .ok none

/-- The literal ASCII bytes of the `"RIFF"` magic (`riff` in `riff.ts`). -/
def riffTag : Bytes := [82, 73, 70, 70]

/-- Error produced when header validation finds a mismatching byte; when the
input is shorter than 4 bytes the observed value is `undefined` and the JS
code raises a `TypeError` while formatting the message, still a failure. -/
def headerError (i exp : Nat) (found : Option Nat) : String :=
  "Invalid RIFF header (expecting file[" ++ toString i ++ "] == " ++ toString exp ++
    ", but found " ++ (match found with
      | some v => toString v
      | none => "undefined: TypeError") ++ ")"

/-- The header-validation loop of `decodeRiff`, over the remaining indices. -/
def checkHeaderAux (fileRiff : Bytes) : List Nat → Except String Unit
  | [] => .ok ()
  | i :: rest =>
    if fileRiff[i]? = some (riffTag.getD i 0) then checkHeaderAux fileRiff rest
    else .error (headerError i (riffTag.getD i 0) fileRiff[i]?)

/-- Header validation: compare the first 4 bytes with the `"RIFF"` magic. -/
def checkHeader (blob : Bytes) : Except String Unit :=
  checkHeaderAux (sliceList blob 0 4) [0, 1, 2, 3]

/-- `UnknownRiffChunk`: an id together with an opaque payload. -/
structure UnknownRiffChunk where
  id : Bytes
  data : Bytes
deriving DecidableEq, Repr

/-- `RiffFile<T>`: container type tag, typed chunks, unknown chunks. -/
structure RiffFile (α : Type) where
  type : Bytes
  content : List α
  unknowns : List UnknownRiffChunk
deriving DecidableEq, Repr

/-- `RiffChunkCodec<T>`: encode/decode for one chunk id. -/
structure RiffChunkCodec (α : Type) where
  enc : α → Except String Bytes
  dec : Bytes → Except String α

/-- A codec registry (`RiffChunkCodecs`), keyed by the 4-character id;
an absent registry is the constantly-`none` function. -/
abbrev CodecReg (α : Type) := Bytes → Option (RiffChunkCodec α)

/-- The chunk walk of `decodeRiff` (its `while` loop).  `fuel` only bounds
the number of iterations; every caller passes more fuel than the loop can
consume, since each iteration either ends the walk or advances the pointer
by at least 8.  A record whose size field lies entirely past the end of the
buffer makes `subchunkSize` undefined: the subchunk slice is then empty and
the pointer becomes NaN, so the walk ends right after handling that record. -/
def riffWalk {α : Type} (codecs : CodecReg α) :
    Nat → Nat → Bytes → Except String (List α × List UnknownRiffChunk)
  | 0, _, _ => .ok ([], [])
  | fuel + 1, pointer, raw =>
    if pointer < raw.length then
      let id := sliceList raw pointer (pointer + 4)
      match readU32 (sliceList raw (pointer + 4) (pointer + 8)) with
      | .error e => .error e
      | .ok none =>
        (match codecs id with
         | some c =>
           match c.dec [] with
           | .error e => .error e
           | .ok d => .ok ([d], [])
         | none => .ok ([], [⟨id, []⟩]))
      | .ok (some size) =>
        let sub := sliceList raw (pointer + 8) (pointer + 8 + size)
        match codecs id with
        | some c =>
          match c.dec sub with
          | .error e => .error e
          | .ok d =>
            match riffWalk codecs fuel (pointer + size + 8) raw with
            | .error e => .error e
            | .ok (cs, us) => .ok (d :: cs, us)
        | none =>
          match riffWalk codecs fuel (pointer + size + 8) raw with
          | .error e => .error e
          | .ok (cs, us) => .ok (cs, ⟨id, sub⟩ :: us)
    else .ok ([], [])

/-- `decodeRiff` after the (optional) header validation: read the container
size and type tag, slice out the payload span, and walk it.  When the size
slice is empty the JS `size` is undefined and the payload span collapses to
the empty blob, so the walk returns nothing. -/
def riffBody {α : Type} (blob : Bytes) (codecs : CodecReg α) : Except String (RiffFile α) :=
  match readU32 (sliceList blob 4 8) with
  | .error e => .error e
  | .ok none => .ok ⟨sliceList blob 8 12, [], []⟩
  | .ok (some size) =>
    let contentRaw := sliceList blob 12 (size + 8)
    match riffWalk codecs (contentRaw.length + 1) 0 contentRaw with
    | .error e => .error e
    | .ok (cs, us) => .ok ⟨sliceList blob 8 12, cs, us⟩

/-- `decodeRiff` from `riff.ts`. -/
def decodeRiff {α : Type} (blob : Bytes) (codecs : CodecReg α) (validateHeader : Bool) :
    Except String (RiffFile α) :=
  if validateHeader then
    match checkHeader blob with
    | .error e => .error e
    | .ok _ => riffBody blob codecs
  else riffBody blob codecs

/-- Error for a container type tag whose length is not 4. -/
def typeLenError (t : Bytes) : String :=
  "RIFF type must have a length of 4 (found a string of length " ++ toString t.length ++ ")"

/-- Error for a typed chunk id whose length is not 4. -/
def chunkIdLenError (id : Bytes) : String :=
  "Chunk ID must have a length of 4 (found a string of length " ++ toString id.length ++ ")"

/-- Error for a typed chunk id with no codec in the registry. -/
def noCodecError (id : Bytes) : String :=
  "No chunk codec for id " ++ toString id

/-- The `content` loop of `encodeRiff`: for each typed chunk, in order,
check the id length, look up the codec, encode, and emit
`id ++ u32le(payload length) ++ payload`. -/
def encodeChunksM {α : Type} (chunkId : α → Bytes) (codecs : CodecReg α) :
    List α → Except String Bytes
  | [] => .ok []
  | c :: rest =>
    if (chunkId c).length ≠ 4 then .error (chunkIdLenError (chunkId c))
    else
      match codecs (chunkId c) with
      | none => .error (noCodecError (chunkId c))
      | some cd =>
        match cd.enc c with
        | .error e => .error e
        | .ok payload =>
          match encodeChunksM chunkId codecs rest with
          | .error e => .error e
          | .ok restBytes => .ok (chunkId c ++ u32le payload.length ++ payload ++ restBytes)

/-- The `unknowns` loop of `encodeRiff`: emit each record verbatim with its
length, with no validation at all. -/
def encodeUnknowns : List UnknownRiffChunk → Bytes
  | [] => []
  | u :: rest => u.id ++ u32le u.data.length ++ u.data ++ encodeUnknowns rest

/-- `encodeRiff` from `riff.ts`. -/
def encodeRiff {α : Type} (chunkId : α → Bytes) (file : RiffFile α) (codecs : CodecReg α) :
    Except String Bytes :=
  if file.type.length ≠ 4 then .error (typeLenError file.type)
  else
    match encodeChunksM chunkId codecs file.content with
    | .error e => .error e
    | .ok cbytes =>
      let contentBlob := file.type ++ cbytes ++ encodeUnknowns file.unknowns
      .ok (riffTag ++ u32le contentBlob.length ++ contentBlob)

/-- The empty codec registry (`decodeRiff` / `encodeRiff` called without one). -/
def noCodecs : CodecReg UnknownRiffChunk := fun _ => none

/-! ### Slice arithmetic -/

theorem sliceList_append (a b : Bytes) (s e : Nat) :
    sliceList (a ++ b) (a.length + s) (a.length + e) = sliceList b s e := by
  simp [sliceList, List.drop_append, Nat.add_sub_add_left]

theorem sliceList_prefix (a b : Bytes) : sliceList (a ++ b) 0 a.length = a := by
  simp [sliceList, List.take_left]

theorem sliceList_zero_take (l : Bytes) (e : Nat) : sliceList l 0 e = l.take e := by
  simp [sliceList]

theorem take_len (a b : Bytes) (n : Nat) (h : a.length = n) : (a ++ b).take n = a := by
  subst h; exact List.take_left a b

theorem sliceList_seg (a b : Bytes) (s e : Nat) (hs : a.length = s) :
    sliceList (a ++ b) s e = b.take (e - s) := by
  subst hs; simp [sliceList, List.drop_left]

theorem u32le_length (n : Nat) : (u32le n).length = 4 := rfl

theorem readU32_u32le (n : Nat) : readU32 (u32le n) = .ok (some (n % 4294967296)) := by
  simp only [readU32, u32le]
  norm_num
  omega

/-- The chunk walk only looks at the buffer from the pointer on: walking
`pre ++ rest` from `pre.length + p` is walking `rest` from `p`. -/
theorem riffWalk_shift {α : Type} (codecs : CodecReg α) :
    ∀ (fuel : Nat) (pre rest : Bytes) (p : Nat),
      riffWalk codecs fuel (pre.length + p) (pre ++ rest) = riffWalk codecs fuel p rest := by
  intro fuel
  induction fuel with
  | zero => intro pre rest p; rfl
  | succ fuel ih =>
    intro pre rest p
    by_cases h : p < rest.length
    · have h2 : pre.length + p < (pre ++ rest).length := by
        simp only [List.length_append]; omega
      simp only [riffWalk]
      rw [if_pos h2, if_pos h, Nat.add_assoc pre.length p 4, Nat.add_assoc pre.length p 8,
        sliceList_append, sliceList_append]
      have hsub : ∀ size : Nat,
          sliceList (pre ++ rest) (pre.length + (p + 8)) (pre.length + (p + 8) + size) =
            sliceList rest (p + 8) (p + 8 + size) := by
        intro size
        rw [Nat.add_assoc pre.length (p + 8) size, sliceList_append]
      have hrec : ∀ size : Nat,
          riffWalk codecs fuel (pre.length + p + size + 8) (pre ++ rest) =
            riffWalk codecs fuel (p + size + 8) rest := by
        intro size
        rw [show pre.length + p + size + 8 = pre.length + (p + size + 8) from by omega,
          ih pre rest (p + size + 8)]
      simp only [hsub, hrec]
    · have h2 : ¬pre.length + p < (pre ++ rest).length := by
        simp only [List.length_append]; omega
      simp only [riffWalk]
      rw [if_neg h2, if_neg h]

/-- One step of the chunk walk over a well-formed record at the front of the
buffer: the id, size and payload are read back exactly and the walk
continues after the record. -/
theorem riffWalk_step {α : Type} (codecs : CodecReg α) (id payload rest : Bytes) (fuel : Nat)
    (h4 : id.length = 4) (hL : payload.length < 4294967296) :
    riffWalk codecs (fuel + 1) 0 (id ++ u32le payload.length ++ payload ++ rest) =
      (match codecs id with
       | some c =>
         match c.dec payload with
         | .error e => .error e
         | .ok d =>
           match riffWalk codecs fuel 0 rest with
           | .error e => .error e
           | .ok (cs, us) => .ok (d :: cs, us)
       | none =>
         match riffWalk codecs fuel 0 rest with
         | .error e => .error e
         | .ok (cs, us) => .ok (cs, ⟨id, payload⟩ :: us)) := by
  have hpos : 0 < (id ++ u32le payload.length ++ payload ++ rest).length := by
    simp [List.length_append, h4]
  have hid : sliceList (id ++ u32le payload.length ++ payload ++ rest) 0 4 = id := by
    rw [sliceList_zero_take, List.append_assoc, List.append_assoc]
    exact take_len id _ 4 h4
  have hsz : sliceList (id ++ u32le payload.length ++ payload ++ rest) 4 8 =
      u32le payload.length := by
    rw [List.append_assoc, List.append_assoc, sliceList_seg id _ 4 8 h4]
    exact take_len (u32le payload.length) _ _ (u32le_length _)
  have hsub : sliceList (id ++ u32le payload.length ++ payload ++ rest) 8
      (8 + payload.length) = payload := by
    rw [List.append_assoc,
      sliceList_seg (id ++ u32le payload.length) _ 8 (8 + payload.length)
        (by simp only [List.length_append, h4, u32le_length])]
    exact take_len payload rest _ (by omega)
  have hrec : riffWalk codecs fuel (payload.length + 8)
      (id ++ u32le payload.length ++ payload ++ rest) = riffWalk codecs fuel 0 rest := by
    rw [show payload.length + 8 = (id ++ u32le payload.length ++ payload).length + 0 from by
        simp only [List.length_append, h4, u32le_length]; omega,
      riffWalk_shift]
  simp only [riffWalk, Nat.zero_add]
  rw [if_pos hpos, hsz, readU32_u32le, Nat.mod_eq_of_lt hL]
  simp only [hid, hsub, hrec]

/-- Decoding a container of the exact shape produced by `encodeRiff`
reduces to the chunk walk over its records. -/
theorem decodeRiff_container {α : Type} (codecs : CodecReg α) (type records : Bytes)
    (h4 : type.length = 4) (hCS : 4 + records.length < 4294967296) :
    decodeRiff (riffTag ++ u32le (4 + records.length) ++ (type ++ records)) codecs true =
      match riffWalk codecs (records.length + 1) 0 records with
      | .error e => .error e
      | .ok (cs, us) => .ok ⟨type, cs, us⟩ := by
  have hchk : checkHeader (riffTag ++ u32le (4 + records.length) ++ (type ++ records)) =
      .ok () := by
    unfold checkHeader
    rw [sliceList_zero_take, List.append_assoc, take_len riffTag _ 4 rfl]
    decide
  have hsz : sliceList (riffTag ++ u32le (4 + records.length) ++ (type ++ records)) 4 8 =
      u32le (4 + records.length) := by
    rw [List.append_assoc, sliceList_seg riffTag _ 4 8 rfl]
    exact take_len _ _ _ (u32le_length _)
  have htp : sliceList (riffTag ++ u32le (4 + records.length) ++ (type ++ records)) 8 12 =
      type := by
    rw [sliceList_seg (riffTag ++ u32le (4 + records.length)) _ 8 12
      (by simp only [List.length_append, u32le_length]; rfl)]
    exact take_len type records _ (by omega)
  have hcr : sliceList (riffTag ++ u32le (4 + records.length) ++ (type ++ records)) 12
      (4 + records.length + 8) = records := by
    rw [show riffTag ++ u32le (4 + records.length) ++ (type ++ records) =
        (riffTag ++ u32le (4 + records.length) ++ type) ++ records from by
        simp [List.append_assoc],
      sliceList_seg _ _ 12 (4 + records.length + 8)
        (by simp only [List.length_append, u32le_length, h4]; rfl),
      show 4 + records.length + 8 - 12 = records.length from by omega]
    exact List.take_length records
  unfold decodeRiff
  rw [hchk]
  unfold riffBody
  rw [hsz, readU32_u32le, Nat.mod_eq_of_lt hCS]
  simp only [hcr, htp, if_true]

/-! ### C1: unknown-chunk round trip -/

theorem mem_encodeUnknowns_data_le :
    ∀ us : List UnknownRiffChunk, ∀ u ∈ us, u.data.length ≤ (encodeUnknowns us).length := by
  intro us
  induction us with
  | nil => simp
  | cons v us ih =>
    intro u hu
    simp only [encodeUnknowns, List.length_append]
    rcases List.mem_cons.mp hu with h | h
    · subst h; omega
    · have := ih u h; omega

theorem length_le_encodeUnknowns :
    ∀ us : List UnknownRiffChunk, us.length ≤ (encodeUnknowns us).length := by
  intro us
  induction us with
  | nil => simp
  | cons v us ih =>
    simp only [encodeUnknowns, List.length_append, List.length_cons, u32le_length]
    omega

/-- Walking the byte image of a list of unknown chunks (4-byte ids, sizes
below 2^32, none of them in the registry) recovers exactly those chunks. -/
theorem riffWalk_unknowns {α : Type} (codecs : CodecReg α) :
    ∀ (us : List UnknownRiffChunk) (fuel : Nat),
      (∀ u ∈ us, u.id.length = 4 ∧ u.data.length < 4294967296 ∧ codecs u.id = none) →
      us.length < fuel →
      riffWalk codecs fuel 0 (encodeUnknowns us) = .ok ([], us) := by
  intro us
  induction us with
  | nil =>
    intro fuel _ hf
    cases fuel with
    | zero => omega
    | succ f => simp [riffWalk, encodeUnknowns]
  | cons u us ih =>
    intro fuel h hf
    obtain ⟨h4, hL, hnone⟩ := h u (by simp)
    cases fuel with
    | zero => omega
    | succ f =>
      rw [encodeUnknowns, riffWalk_step codecs u.id u.data _ f h4 hL, hnone,
        ih f (fun v hv => h v (by simp [hv])) (by simpa using Nat.lt_of_succ_lt_succ hf)]

/-- Encoding a container with empty content and only unknown chunks:
the output is the header, the wrapped content size, the type tag and the
verbatim unknown records. -/
theorem encodeRiff_unknowns (t : Bytes) (us : List UnknownRiffChunk) (h4 : t.length = 4) :
    encodeRiff UnknownRiffChunk.id (⟨t, [], us⟩ : RiffFile UnknownRiffChunk) noCodecs =
      .ok (riffTag ++ u32le (4 + (encodeUnknowns us).length) ++ (t ++ encodeUnknowns us)) := by
  simp only [encodeRiff]
  rw [if_neg (by simp [h4])]
  simp only [encodeChunksM, List.append_nil, List.nil_append, List.length_append, h4]

/-- C1 is refuted once the encoded content size reaches 2^32: this container
satisfies all of C1's hypotheses (4-ASCII type, empty content, one unknown
chunk with a 4-ASCII id), yet its content size 2^32 + 8 is stored wrapped as
8, so decoding recovers an empty payload instead of the 2^32 - 4 data bytes. -/
theorem riff_roundtrip_overflow_cex_c1 :
    ∃ blob,
      encodeRiff UnknownRiffChunk.id
        ⟨[87, 65, 86, 69], [], [⟨[97, 98, 99, 100], List.replicate 4294967292 0⟩]⟩
        noCodecs = .ok blob ∧
      decodeRiff blob noCodecs true =
        .ok ⟨[87, 65, 86, 69], [], [⟨[97, 98, 99, 100], []⟩]⟩ ∧
      (⟨[87, 65, 86, 69], [], [⟨[97, 98, 99, 100], []⟩]⟩ : RiffFile UnknownRiffChunk) ≠
        ⟨[87, 65, 86, 69], [], [⟨[97, 98, 99, 100], List.replicate 4294967292 0⟩]⟩ := by
  have hEU : encodeUnknowns [⟨[97, 98, 99, 100], List.replicate 4294967292 0⟩] =
      [97, 98, 99, 100] ++ u32le 4294967292 ++ List.replicate 4294967292 0 := by
    rw [encodeUnknowns, encodeUnknowns, List.length_replicate, List.append_nil]
  have hlenEU : (encodeUnknowns [⟨[97, 98, 99, 100], List.replicate 4294967292 0⟩]).length =
      4294967300 := by
    rw [hEU]
    simp only [List.length_append, u32le_length, List.length_replicate, List.length_cons,
      List.length_nil]
  have henc := encodeRiff_unknowns [87, 65, 86, 69]
    [⟨[97, 98, 99, 100], List.replicate 4294967292 0⟩] rfl
  rw [hlenEU, hEU, show (4 : Nat) + 4294967300 = 4294967304 from by norm_num] at henc
  refine ⟨riffTag ++ u32le 4294967304 ++
    ([87, 65, 86, 69] ++ ([97, 98, 99, 100] ++ u32le 4294967292 ++
      List.replicate 4294967292 0)), henc, ?_, ?_⟩
  · unfold decodeRiff
    have hchk : checkHeader (riffTag ++ u32le 4294967304 ++
        ([87, 65, 86, 69] ++ ([97, 98, 99, 100] ++ u32le 4294967292 ++
          List.replicate 4294967292 0))) = .ok () := by
      unfold checkHeader
      rw [sliceList_zero_take, List.append_assoc, take_len riffTag _ 4 rfl]
      decide
    rw [hchk]
    unfold riffBody
    have hsz : sliceList (riffTag ++ u32le 4294967304 ++
        ([87, 65, 86, 69] ++ ([97, 98, 99, 100] ++ u32le 4294967292 ++
          List.replicate 4294967292 0))) 4 8 = u32le 4294967304 := by
      rw [List.append_assoc, sliceList_seg riffTag _ 4 8 rfl]
      exact take_len _ _ _ (u32le_length _)
    rw [hsz, readU32_u32le, show (4294967304 : Nat) % 4294967296 = 8 from by norm_num]
    have htp : sliceList (riffTag ++ u32le 4294967304 ++
        ([87, 65, 86, 69] ++ ([97, 98, 99, 100] ++ u32le 4294967292 ++
          List.replicate 4294967292 0))) 8 12 = [87, 65, 86, 69] := by
      rw [sliceList_seg (riffTag ++ u32le 4294967304) _ 8 12
        (by simp only [List.length_append, u32le_length]; rfl)]
      exact take_len _ _ _ (by rfl)
    have hcr : sliceList (riffTag ++ u32le 4294967304 ++
        ([87, 65, 86, 69] ++ ([97, 98, 99, 100] ++ u32le 4294967292 ++
          List.replicate 4294967292 0))) 12 (8 + 8) = [97, 98, 99, 100] := by
      rw [show riffTag ++ u32le 4294967304 ++
          ([87, 65, 86, 69] ++ ([97, 98, 99, 100] ++ u32le 4294967292 ++
            List.replicate 4294967292 0)) =
          (riffTag ++ u32le 4294967304 ++ [87, 65, 86, 69]) ++
            ([97, 98, 99, 100] ++ (u32le 4294967292 ++ List.replicate 4294967292 0)) from by
          simp only [List.append_assoc],
        sliceList_seg _ _ 12 (8 + 8) (by simp only [List.length_append, u32le_length]; rfl)]
      exact take_len _ _ _ (by rfl)
    simp only [hcr, htp, if_true]
    decide
  · intro h
    have h2 := congrArg (fun fl : RiffFile UnknownRiffChunk => fl.unknowns) h
    simp only [List.cons.injEq, UnknownRiffChunk.mk.injEq] at h2
    have h3 := congrArg List.length h2.1.2
    rw [List.length_nil, List.length_replicate] at h3
    exact absurd h3 (by norm_num)

/-- C1 (amended): for every `RiffFile` whose type is exactly 4 ASCII
characters, whose content is empty, whose unknown chunks all carry 4-ASCII
ids, **and whose encoded content size is below 2^32** (forced by the wrapped
32-bit size fields exhibited by the counterexample), encoding with no codec
registry and decoding back yields the same file: same type, empty content,
and the same unknown chunks in the same order with byte-identical payloads. -/
theorem riff_roundtrip_unknowns_c1 (f : RiffFile UnknownRiffChunk)
    (htype : f.type.length = 4) (hascii : ∀ c ∈ f.type, c < 128)
    (hcontent : f.content = [])
    (hids : ∀ u ∈ f.unknowns, u.id.length = 4 ∧ ∀ c ∈ u.id, c < 128)
    (hsize : 4 + (encodeUnknowns f.unknowns).length < 4294967296) :
    ∃ blob, encodeRiff UnknownRiffChunk.id f noCodecs = .ok blob ∧
      decodeRiff blob noCodecs true = .ok f := by
  obtain ⟨t, c, us⟩ := f
  simp only at htype hascii hcontent hids hsize
  subst hcontent
  refine ⟨_, encodeRiff_unknowns t us htype, ?_⟩
  have hwalk := riffWalk_unknowns noCodecs us ((encodeUnknowns us).length + 1)
    (fun u hu => ⟨(hids u hu).1,
      by have := mem_encodeUnknowns_data_le us u hu; omega, rfl⟩)
    (by have := length_le_encodeUnknowns us; omega)
  rw [decodeRiff_container noCodecs t (encodeUnknowns us) htype hsize, hwalk]

theorem riff_roundtrip_unknowns_c1_witness :
    ∃ blob,
      encodeRiff UnknownRiffChunk.id
        ⟨[87, 65, 86, 69], [], [⟨[97, 98, 99, 100], [1, 2, 3]⟩]⟩ noCodecs = .ok blob ∧
      decodeRiff blob noCodecs true =
        .ok ⟨[87, 65, 86, 69], [], [⟨[97, 98, 99, 100], [1, 2, 3]⟩]⟩ :=
  riff_roundtrip_unknowns_c1 ⟨[87, 65, 86, 69], [], [⟨[97, 98, 99, 100], [1, 2, 3]⟩]⟩
    (by decide) (by decide) rfl (by decide) (by decide)

/-! ### C6: header validation -/

/-- C6: with validation on, `decodeRiff` fails whenever a byte among the
first four differs from the corresponding ASCII byte of `"RIFF"`, with an
error identifying the (first) mismatching index and both the expected and
the observed byte; with `validateHeader := false` the header bytes are not
inspected at all — decoding is exactly the header-free body, so no header
error can arise. -/
theorem decodeRiff_header_validation_c6 {α : Type} (codecs : CodecReg α) (blob : Bytes) :
    (∀ i : Nat, i < 4 → (∀ j : Nat, j < i → blob[j]? = some (riffTag.getD j 0)) →
        ∀ b : Nat, blob[i]? = some b → b ≠ riffTag.getD i 0 →
        decodeRiff blob codecs true = .error (headerError i (riffTag.getD i 0) (some b))) ∧
    decodeRiff blob codecs false = riffBody blob codecs := by
  constructor
  · intro i hi hprev b hb hne
    have hget : ∀ j : Nat, j < 4 → (sliceList blob 0 4)[j]? = blob[j]? := by
      intro j hj
      simp only [sliceList, Nat.sub_zero, List.drop_zero]
      exact List.getElem?_take_of_lt hj
    have hchk : checkHeader blob = .error (headerError i (riffTag.getD i 0) (some b)) := by
      unfold checkHeader
      simp only [checkHeaderAux, hget 0 (by norm_num), hget 1 (by norm_num),
        hget 2 (by norm_num), hget 3 (by norm_num)]
      interval_cases i
      · rw [if_neg (by rw [hb]; simpa [riffTag] using hne), hb]
      · rw [if_pos (hprev 0 (by norm_num)), if_neg (by rw [hb]; simpa [riffTag] using hne), hb]
      · rw [if_pos (hprev 0 (by norm_num)), if_pos (hprev 1 (by norm_num)),
          if_neg (by rw [hb]; simpa [riffTag] using hne), hb]
      · rw [if_pos (hprev 0 (by norm_num)), if_pos (hprev 1 (by norm_num)),
          if_pos (hprev 2 (by norm_num)), if_neg (by rw [hb]; simpa [riffTag] using hne), hb]
    simp [decodeRiff, hchk]
  · rfl

theorem decodeRiff_header_validation_c6_witness :
    decodeRiff (α := UnknownRiffChunk) [82, 73, 0, 70] noCodecs true =
      .error (headerError 2 70 (some 0)) ∧
    decodeRiff (α := UnknownRiffChunk) [9, 9, 9, 9] noCodecs false =
      riffBody [9, 9, 9, 9] noCodecs :=
  ⟨by
    have h := (decodeRiff_header_validation_c6 noCodecs [82, 73, 0, 70]).1 2 (by norm_num)
      (by decide) 0 (by decide) (by decide)
    simpa [riffTag] using h,
   (decodeRiff_header_validation_c6 noCodecs [9, 9, 9, 9]).2⟩

/-! ### C9: truncated records in the chunk walk -/

/-- C9 is refuted: a record whose id and size field both run past the end of
the buffer does **not** make `decodeRiff` fail; the walk silently ends with
a partial junk record.  Input: `"RIFF"`, container size 6, type `"WAVE"`,
then 2 stray bytes — the id read yields the 2-byte string `[0, 0]`, the size
read yields `undefined`, and decoding succeeds with that junk unknown chunk. -/
theorem riffWalk_truncated_cex_c9 :
    decodeRiff (α := UnknownRiffChunk) [82, 73, 70, 70, 6, 0, 0, 0, 87, 65, 86, 69, 0, 0]
      noCodecs true = .ok ⟨[87, 65, 86, 69], [], [⟨[0, 0], []⟩]⟩ := by decide

/-- C9 (amended): in the chunk walk, a record whose 4-byte size field lies
only partly past the end of the buffer (1–3 bytes available for it) fails
with the generic `RangeError` of the unaligned `Uint32Array` view, while a
record whose size field lies entirely past the end (at most 4 bytes of the
record available) makes the walk terminate silently, recording the partial
id with an empty payload as an unknown chunk; and a declared payload that
runs past the end is silently truncated by slice clamping, never an error:
the record decodes with only the bytes that remain after its header. -/
theorem riffWalk_truncated_c9 {α : Type} (codecs : CodecReg α) (raw : Bytes)
    (pointer fuel : Nat) :
    (pointer + 4 < raw.length → raw.length < pointer + 8 →
        riffWalk codecs (fuel + 1) pointer raw = .error rangeError32) ∧
    (pointer < raw.length → raw.length ≤ pointer + 4 →
        codecs (sliceList raw pointer (pointer + 4)) = none →
        riffWalk codecs (fuel + 1) pointer raw =
          .ok ([], [⟨sliceList raw pointer (pointer + 4), []⟩])) ∧
    (∀ size : Nat, pointer + 8 ≤ raw.length → raw.length < pointer + 8 + size →
        sliceList raw (pointer + 4) (pointer + 8) = u32le size → size < 4294967296 →
        codecs (sliceList raw pointer (pointer + 4)) = none →
        riffWalk codecs (fuel + 2) pointer raw =
          .ok ([], [⟨sliceList raw pointer (pointer + 4), List.drop (pointer + 8) raw⟩])) := by
  refine ⟨?_, ?_, ?_⟩
  · intro h1 h2
    have hlen : (sliceList raw (pointer + 4) (pointer + 8)).length = raw.length - (pointer + 4) := by
      simp only [sliceList, List.length_take, List.length_drop]
      omega
    have hmod : (sliceList raw (pointer + 4) (pointer + 8)).length % 4 ≠ 0 := by
      rw [hlen]; omega
    simp only [riffWalk, if_pos (by omega : pointer < raw.length), readU32, if_pos hmod]
  · intro h1 h2 hcodec
    have hnil : sliceList raw (pointer + 4) (pointer + 8) = [] := by
      simp only [sliceList]
      rw [List.drop_eq_nil_of_le (by omega), List.take_nil]
    simp only [riffWalk, if_pos h1, hnil, readU32, List.length_nil, hcodec]
    norm_num
  · intro size h1 h2 hsz hlt hcodec
    have hsub : sliceList raw (pointer + 8) (pointer + 8 + size) =
        List.drop (pointer + 8) raw := by
      unfold sliceList
      rw [show pointer + 8 + size - (pointer + 8) = size from by omega]
      exact List.take_of_length_le (by rw [List.length_drop]; omega)
    simp only [riffWalk, if_pos (show pointer < raw.length from by omega), hsz,
      readU32_u32le, Nat.mod_eq_of_lt hlt, hcodec, hsub]
    rw [if_neg (show ¬pointer + size + 8 < raw.length from by omega)]

theorem riffWalk_truncated_c9_witness :
    riffWalk (α := UnknownRiffChunk) noCodecs 6 0 [0, 0, 0, 0, 0, 0] = .error rangeError32 ∧
    riffWalk (α := UnknownRiffChunk) noCodecs 3 0 [0, 0] = .ok ([], [⟨[0, 0], []⟩]) ∧
    riffWalk (α := UnknownRiffChunk) noCodecs 2 0 [65, 66, 67, 68, 5, 0, 0, 0, 9, 9] =
      .ok ([], [⟨[65, 66, 67, 68], [9, 9]⟩]) :=
  ⟨(riffWalk_truncated_c9 noCodecs [0, 0, 0, 0, 0, 0] 0 5).1 (by norm_num) (by norm_num),
   by
    have h := (riffWalk_truncated_c9 noCodecs [0, 0] 0 2).2.1 (by norm_num) (by norm_num) rfl
    simpa using h,
   by
    have h := (riffWalk_truncated_c9 noCodecs [65, 66, 67, 68, 5, 0, 0, 0, 9, 9] 0 0).2.2
      5 (by norm_num) (by norm_num) (by decide) (by norm_num) rfl
    simpa using h⟩

/-! ### C10: which input bytes decoding depends on -/

/-- C10 is refuted: when the declared container size is small (here 0), the
type tag at bytes `[8, 12)` lies outside `[0, size + 8)`, yet it still
affects the result — appending 4 trailing bytes to an 8-byte input that
declares size 0 changes the decoded `type` from `[]` to those bytes, even
though the two inputs agree on all of `[0, size + 8) = [0, 8)`. -/
theorem decodeRiff_trailing_cex_c10 :
    readU32 (sliceList [82, 73, 70, 70, 0, 0, 0, 0] 4 8) = .ok (some 0) ∧
    sliceList [82, 73, 70, 70, 0, 0, 0, 0] 0 8 =
      sliceList ([82, 73, 70, 70, 0, 0, 0, 0] ++ [87, 65, 86, 69]) 0 8 ∧
    decodeRiff (α := UnknownRiffChunk) [82, 73, 70, 70, 0, 0, 0, 0] noCodecs true ≠
      decodeRiff (α := UnknownRiffChunk) ([82, 73, 70, 70, 0, 0, 0, 0] ++ [87, 65, 86, 69])
        noCodecs true := by decide

/-- C10 (amended): `decodeRiff` reads only bytes `[0, max(12, size + 8))` of
its input, where `size` is the u32-LE value at bytes `[4, 8)`: two inputs
that agree on bytes `[0, 12)` (header, size and type tag) and on the payload
span `[12, size + 8)` decode identically, so bytes after the declared
container extent (and after the type tag) never affect the result. -/
theorem decodeRiff_reads_c10 {α : Type} (codecs : CodecReg α) (v : Bool) (b1 b2 : Bytes)
    (size : Nat)
    (h12 : sliceList b1 0 12 = sliceList b2 0 12)
    (hsz : readU32 (sliceList b1 4 8) = .ok (some size))
    (hp : sliceList b1 12 (size + 8) = sliceList b2 12 (size + 8)) :
    decodeRiff b1 codecs v = decodeRiff b2 codecs v := by
  have htk : b1.take 12 = b2.take 12 := by
    simpa [sliceList] using h12
  have h04 : sliceList b1 0 4 = sliceList b2 0 4 := by
    have := congrArg (List.take 4) htk
    simpa [sliceList, List.take_take] using this
  have h48 : sliceList b1 4 8 = sliceList b2 4 8 := by
    have := congrArg (fun l : Bytes => (l.drop 4).take 4) htk
    simpa [sliceList, List.drop_take, List.take_take] using this
  have h812 : sliceList b1 8 12 = sliceList b2 8 12 := by
    have := congrArg (List.drop 8) htk
    simpa [sliceList, List.drop_take] using this
  have hsz2 : readU32 (sliceList b2 4 8) = .ok (some size) := by rw [← h48]; exact hsz
  have hbody : riffBody b1 codecs = riffBody b2 codecs := by
    unfold riffBody
    rw [hsz, hsz2]
    simp only [hp, h812]
  unfold decodeRiff checkHeader
  rw [h04, hbody]

/-! ### C7: encodeRiff validation -/

theorem encodeChunksM_append {α : Type} (cid : α → Bytes) (codecs : CodecReg α)
    (pre rest : List α) :
    encodeChunksM cid codecs (pre ++ rest) =
      match encodeChunksM cid codecs pre with
      | .error e => .error e
      | .ok bs =>
        match encodeChunksM cid codecs rest with
        | .error e => .error e
        | .ok bs2 => .ok (bs ++ bs2) := by
  induction pre with
  | nil =>
    simp only [List.nil_append, encodeChunksM]
    cases encodeChunksM cid codecs rest <;> simp
  | cons c pre ih =>
    simp only [List.cons_append, encodeChunksM, ih]
    by_cases h : (cid c).length ≠ 4
    · rw [if_pos h, if_pos h]
    · rw [if_neg h, if_neg h]
      cases hcd : codecs (cid c) with
      | none => simp only
      | some cd =>
        simp only
        cases henc : cd.enc c with
        | error e => simp only
        | ok payload =>
          simp only [List.append_eq, ih]
          cases hpre : encodeChunksM cid codecs pre with
          | error e => simp only
          | ok bs =>
            simp only
            cases hrest : encodeChunksM cid codecs rest with
            | error e => simp only
            | ok bs2 => simp only [List.append_assoc]

theorem encodeChunksM_ok {α : Type} (cid : α → Bytes) (codecs : CodecReg α) :
    ∀ content : List α,
      (∀ c ∈ content, (cid c).length = 4 ∧
          ∃ cd bs, codecs (cid c) = some cd ∧ cd.enc c = .ok bs) →
      ∃ out, encodeChunksM cid codecs content = .ok out := by
  intro content
  induction content with
  | nil => intro _; exact ⟨[], rfl⟩
  | cons c rest ih =>
    intro h
    obtain ⟨h4, cd, bs, hcd, henc⟩ := h c (by simp)
    obtain ⟨out, hout⟩ := ih (fun c0 hc0 => h c0 (by simp [hc0]))
    refine ⟨cid c ++ u32le bs.length ++ bs ++ out, ?_⟩
    simp only [encodeChunksM]
    rw [if_neg (by simp [h4])]
    simp only [hcd, henc, hout]

/-- C7: `encodeRiff` fails on a type tag whose length is not 4; on the first
content chunk with an id whose length is not 4, or with no codec in the
registry (earlier chunks all encodable), it fails with the corresponding
error — the result is a failure, so no bytes are emitted; and when the type
tag is 4 long and every typed chunk encodes, encoding succeeds whatever the
unknown chunks are: unknown chunks are emitted verbatim and never consult
the registry. -/
theorem encodeRiff_validation_c7 {α : Type} (chunkId : α → Bytes) (codecs : CodecReg α)
    (file : RiffFile α) :
    (file.type.length ≠ 4 → encodeRiff chunkId file codecs = .error (typeLenError file.type)) ∧
    (∀ pre c post,
        file.type.length = 4 → file.content = pre ++ c :: post →
        (∀ c0 ∈ pre, (chunkId c0).length = 4 ∧
            ∃ cd bs, codecs (chunkId c0) = some cd ∧ cd.enc c0 = .ok bs) →
        (((chunkId c).length ≠ 4 →
            encodeRiff chunkId file codecs = .error (chunkIdLenError (chunkId c))) ∧
         ((chunkId c).length = 4 → codecs (chunkId c) = none →
            encodeRiff chunkId file codecs = .error (noCodecError (chunkId c))))) ∧
    (file.type.length = 4 →
      (∀ c ∈ file.content, (chunkId c).length = 4 ∧
          ∃ cd bs, codecs (chunkId c) = some cd ∧ cd.enc c = .ok bs) →
      ∃ out, encodeRiff chunkId file codecs = .ok out) := by
  refine ⟨fun h => by simp [encodeRiff, h], fun pre c post ht hc hpre => ?_, fun ht hall => ?_⟩
  · obtain ⟨bs, hbs⟩ := encodeChunksM_ok chunkId codecs pre hpre
    constructor
    · intro hlen
      have hcs : encodeChunksM chunkId codecs file.content = .error (chunkIdLenError (chunkId c)) := by
        rw [hc, encodeChunksM_append, hbs]
        simp only [encodeChunksM]
        rw [if_pos hlen]
      simp [encodeRiff, ht, hcs]
    · intro hlen hnone
      have hcs : encodeChunksM chunkId codecs file.content = .error (noCodecError (chunkId c)) := by
        rw [hc, encodeChunksM_append, hbs]
        simp only [encodeChunksM]
        rw [if_neg (by simp [hlen]), hnone]
      simp [encodeRiff, ht, hcs]
  · obtain ⟨bs, hbs⟩ := encodeChunksM_ok chunkId codecs file.content hall
    refine ⟨riffTag ++ u32le (file.type ++ bs ++ encodeUnknowns file.unknowns).length ++
      (file.type ++ bs ++ encodeUnknowns file.unknowns), ?_⟩
    simp only [encodeRiff]
    rw [if_neg (by simp [ht])]
    simp only [hbs]

theorem encodeRiff_validation_c7_witness :
    encodeRiff UnknownRiffChunk.id ⟨[65, 66, 67], [], []⟩ noCodecs =
      .error (typeLenError [65, 66, 67]) ∧
    encodeRiff UnknownRiffChunk.id ⟨[87, 65, 86, 69], [⟨[65, 66, 67], []⟩], []⟩ noCodecs =
      .error (chunkIdLenError [65, 66, 67]) ∧
    encodeRiff UnknownRiffChunk.id ⟨[87, 65, 86, 69], [⟨[65, 66, 67, 68], []⟩], []⟩ noCodecs =
      .error (noCodecError [65, 66, 67, 68]) ∧
    ∃ out, encodeRiff UnknownRiffChunk.id ⟨[87, 65, 86, 69], [], [⟨[1, 2], [9, 9, 9]⟩]⟩
      noCodecs = .ok out :=
  ⟨(encodeRiff_validation_c7 UnknownRiffChunk.id noCodecs _).1 (by decide),
   ((encodeRiff_validation_c7 UnknownRiffChunk.id noCodecs
      ⟨[87, 65, 86, 69], [⟨[65, 66, 67], []⟩], []⟩).2.1 [] ⟨[65, 66, 67], []⟩ []
      (by decide) rfl (by simp)).1 (by decide),
   ((encodeRiff_validation_c7 UnknownRiffChunk.id noCodecs
      ⟨[87, 65, 86, 69], [⟨[65, 66, 67, 68], []⟩], []⟩).2.1 [] ⟨[65, 66, 67, 68], []⟩ []
      (by decide) rfl (by simp)).2 (by decide) rfl,
   (encodeRiff_validation_c7 UnknownRiffChunk.id noCodecs _).2.2 (by decide) (by simp)⟩

theorem decodeRiff_reads_c10_witness :
    decodeRiff (α := UnknownRiffChunk) [82, 73, 70, 70, 4, 0, 0, 0, 87, 65, 86, 69]
      noCodecs true =
    decodeRiff (α := UnknownRiffChunk)
      ([82, 73, 70, 70, 4, 0, 0, 0, 87, 65, 86, 69] ++ [1, 2, 3]) noCodecs true :=
  decodeRiff_reads_c10 noCodecs true _ _ 4 (by decide) (by decide) (by decide)

/-! ## WAVE chunk codecs (`wave.ts`) -/

/-- The `RangeError` raised by `new Uint16Array(buf)` on an odd byte length. -/
def rangeError16 : String :=
  "RangeError: ArrayBuffer length minus the byteOffset is not a multiple of 2"

/-- The `TypeError` raised when JS dereferences `undefined` (e.g. calling
`.toString` on an undefined destructured value, or indexing into an
undefined table row). -/
def typeErrorUndefined : String := "TypeError: cannot read properties of undefined"

/-- The u16 values of a byte buffer, little-endian, as `Uint16Array` sees it. -/
def u16chunks : Bytes → List Nat
  | b0 :: b1 :: rest => (b0 + 256 * b1) :: u16chunks rest
  | _ => []

/-- The u32 values of a byte buffer, little-endian, as `Uint32Array` sees it. -/
def u32chunks : Bytes → List Nat
  | b0 :: b1 :: b2 :: b3 :: rest =>
    (b0 + 256 * b1 + 65536 * b2 + 16777216 * b3) :: u32chunks rest
  | _ => []

/-- `new Uint16Array(buf)` as a value list; `RangeError` on odd lengths. -/
def readU16Arr (b : Bytes) : Except String (List Nat) :=
  if b.length % 2 ≠ 0 then .error rangeError16 else .ok (u16chunks b)

/-- `new Uint32Array(buf)` as a value list; `RangeError` off multiples of 4. -/
def readU32Arr (b : Bytes) : Except String (List Nat) :=
  if b.length % 4 ≠ 0 then .error rangeError32 else .ok (u32chunks b)

/-- The `fmt ` chunk record (`WaveFormatChunk` minus its fixed id; also the
`WaveFormat` record of `types.ts`).  Fields are `Option Nat` because the JS
decoder leaves fields `undefined` when the payload is shorter than the field
layout. -/
structure WaveFormatChunk where
  audioFormat : Option Nat
  channels : Option Nat
  sampleRate : Option Nat
  byteRate : Option Nat
  blockAlign : Option Nat
  bitsPerChannel : Option Nat
deriving DecidableEq, Repr

/-- Hex rendering with `padStart(2, "0")`, used in the unsupported-format
message. -/
def hexPad2 (n : Nat) : String :=
  let s := String.mk (Nat.toDigits 16 n)
  if s.length < 2 then "0" ++ s else s

/-- The unsupported `audioFormat` error, naming the hex value. -/
def unsupportedFormatError (formatId : Nat) : String :=
  "Unsupported audio data format: 0x" ++ hexPad2 formatId

/-- The `fmt ` chunk decoder: u16 pair (audioFormat, channels), the
`audioFormat ∈ {1, 3}` switch (any other value throws, an undefined value
hits the default branch and throws a `TypeError` while formatting), then a
u32 pair and a u16 pair for the remaining four fields. -/
def fmtDecode (b : Bytes) : Except String WaveFormatChunk :=
  match readU16Arr (sliceList b 0 4) with
  | .error e => .error e
  | .ok head =>
    match head[0]? with
    | none => .error typeErrorUndefined
    | some formatId =>
      if formatId = 1 ∨ formatId = 3 then
        match readU32Arr (sliceList b 4 12) with
        | .error e => .error e
        | .ok mid =>
          match readU16Arr (sliceList b 12 16) with
          | .error e => .error e
          | .ok tail =>
            .ok ⟨some formatId, head[1]?, mid[0]?, mid[1]?, tail[0]?, tail[1]?⟩
      else .error (unsupportedFormatError formatId)

/-- `ToNumber` of a possibly-undefined field as a typed-array store sees it:
`undefined` becomes NaN and is stored as 0. -/
def optNum (o : Option Nat) : Nat := o.getD 0

/-- The `fmt ` chunk encoder: the six fields, little-endian, no validation. -/
def fmtEncode (f : WaveFormatChunk) : Bytes :=
  u16le (optNum f.audioFormat) ++ u16le (optNum f.channels) ++
    u32le (optNum f.sampleRate) ++ u32le (optNum f.byteRate) ++
    u16le (optNum f.blockAlign) ++ u16le (optNum f.bitsPerChannel)

/-- C5: on the fixed 16-byte `fmt ` layout, decoding fails with the
unsupported-format error naming the value for every `audioFormat` (the
little-endian u16 at offset 0) other than 1 and 3, and for 1 and 3 it always
succeeds with the six fields read little-endian from the layout
`audioFormat:u16, channels:u16, sampleRate:u32, byteRate:u32,
blockAlign:u16, bitsPerChannel:u16`. -/
theorem fmtDecode_validation_c5
    (b0 b1 b2 b3 b4 b5 b6 b7 b8 b9 b10 b11 b12 b13 b14 b15 : Nat) :
    (b0 + 256 * b1 ≠ 1 → b0 + 256 * b1 ≠ 3 →
      fmtDecode [b0, b1, b2, b3, b4, b5, b6, b7, b8, b9, b10, b11, b12, b13, b14, b15] =
        .error (unsupportedFormatError (b0 + 256 * b1))) ∧
    (b0 + 256 * b1 = 1 ∨ b0 + 256 * b1 = 3 →
      fmtDecode [b0, b1, b2, b3, b4, b5, b6, b7, b8, b9, b10, b11, b12, b13, b14, b15] =
        .ok ⟨some (b0 + 256 * b1), some (b2 + 256 * b3),
          some (b4 + 256 * b5 + 65536 * b6 + 16777216 * b7),
          some (b8 + 256 * b9 + 65536 * b10 + 16777216 * b11),
          some (b12 + 256 * b13), some (b14 + 256 * b15)⟩) := by
  have h1 : readU16Arr (sliceList
      [b0, b1, b2, b3, b4, b5, b6, b7, b8, b9, b10, b11, b12, b13, b14, b15] 0 4) =
      .ok [b0 + 256 * b1, b2 + 256 * b3] := by
    simp [readU16Arr, sliceList, u16chunks]
  have h2 : readU32Arr (sliceList
      [b0, b1, b2, b3, b4, b5, b6, b7, b8, b9, b10, b11, b12, b13, b14, b15] 4 12) =
      .ok [b4 + 256 * b5 + 65536 * b6 + 16777216 * b7,
        b8 + 256 * b9 + 65536 * b10 + 16777216 * b11] := by
    simp [readU32Arr, sliceList, u32chunks]
  have h3 : readU16Arr (sliceList
      [b0, b1, b2, b3, b4, b5, b6, b7, b8, b9, b10, b11, b12, b13, b14, b15] 12 16) =
      .ok [b12 + 256 * b13, b14 + 256 * b15] := by
    simp [readU16Arr, sliceList, u16chunks]
  constructor
  · intro hne1 hne3
    simp only [fmtDecode, h1, List.getElem?_cons_zero, List.getElem?_cons_succ]
    rw [if_neg (by simp [hne1, hne3])]
  · intro hor
    simp only [fmtDecode, h1, h2, h3, List.getElem?_cons_zero, List.getElem?_cons_succ]
    rw [if_pos hor]

theorem fmtDecode_validation_c5_witness :
    fmtDecode [2, 0, 2, 0, 68, 172, 0, 0, 16, 177, 2, 0, 4, 0, 16, 0] =
      .error (unsupportedFormatError 2) ∧
    fmtDecode [1, 0, 2, 0, 68, 172, 0, 0, 16, 177, 2, 0, 4, 0, 16, 0] =
      .ok ⟨some 1, some 2, some 44100, some 176400, some 4, some 16⟩ := by
  constructor
  · have h := (fmtDecode_validation_c5 2 0 2 0 68 172 0 0 16 177 2 0 4 0 16 0).1
      (by norm_num) (by norm_num)
    simpa using h
  · have h := (fmtDecode_validation_c5 1 0 2 0 68 172 0 0 16 177 2 0 4 0 16 0).2
      (by norm_num)
    simpa using h

/-! ### LIST chunk codec -/

/-- LIST entries: a JS object keyed by 4-character tags, modelled as an
association list in property-insertion order. -/
abbrev Entries := List (Bytes × Bytes)

/-- JS object property assignment `entries[name] = value`: re-assignment
keeps the key's original position, a new key is appended. -/
def jsSet : Entries → Bytes → Bytes → Entries
  | [], k, v => [(k, v)]
  | (k0, v0) :: rest, k, v =>
    if k0 = k then (k0, v) :: rest else (k0, v0) :: jsSet rest k v

/-- JS `ToInt32`: wrap an integer into `[-2^31, 2^31)`. -/
def toInt32 (n : Int) : Int := (n + 2147483648) % 4294967296 - 2147483648

/-- The decode loop's cursor advance `((size + 1) >> 1) << 1`, computed as
JS computes it, with 32-bit signed shifts on the u32 `size`: `size + 1`
wraps into Int32, `>> 1` is the sign-propagating (floor) shift, `<< 1`
doubles and wraps into Int32 again.  For `size + 1 < 2^31` this is `size`
rounded up to an even number (`jsAdv_eq_roundUpEven`); for larger declared
sizes the wrap makes the advance small, zero or negative. -/
def jsAdv (size : Nat) : Int := toInt32 (2 * (toInt32 ((size : Int) + 1) / 2))

/-- `size` rounded up to an even number: the value of the decode loop's
advance expression for `size + 1 < 2^31`, and the reading the spec gives it
for every size.  The faithful advance is `jsAdv`; `jsAdv_eq_roundUpEven`
links the two on the in-range sizes. -/
def roundUpEven (size : Nat) : Nat := (size + 1) / 2 * 2

/-- Model boundary: the entry walk exhausted its fuel.  Callers pass more
fuel than any terminating walk can use (every in-model advance is at least
`8 - 2 = 6`, except the exact advance 0 of sizes `2^32 - 9` and `2^32 - 8`),
so this marks a cursor pinned in place — the JS loop would spin forever. -/
def walkFuelError : String := "model: LIST entry walk does not terminate"

/-- Model boundary: a negative advance (declared sizes in
`[2^31 - 1, 2^32 - 10]`) moves the cursor backwards, where the re-reads and
eventually JS negative `Blob.slice` indexing fall outside this embedding. -/
def negAdvError : String := "model: LIST entry walk cursor moved backwards"

/-- The entry loop of the `LIST` decoder.  `fuel` only bounds iterations.
A record whose size field lies past the buffer end makes `size` undefined:
the value slice's end is then NaN (sliced to offset 0, an empty string), the
entry is still stored, and the next advance `8 + ((NaN >> 1) << 1) = 8`
leaves the loop (the walk returns directly, with the same result).  The
cursor advances by the 32-bit `jsAdv size`; a backwards move is reported as
a model error.  The artificial `setTimeout` delay between entries has no
effect on the result and is not modelled. -/
def listWalk : Nat → Nat → Bytes → Entries → Except String Entries
  | 0, _, _, _ => .error walkFuelError
  | fuel + 1, p, b, acc =>
    if p < b.length then
      let name := sliceList b p (p + 4)
      match readU32 (sliceList b (p + 4) (p + 8)) with
      | .error e => .error e
      | .ok none => .ok (jsSet acc name (sliceList b (p + 8) 0))
      | .ok (some size) =>
        let value := sliceList b (p + 8) (p + 8 + size - 1)
        if (8 + jsAdv size : Int) < 0 then .error negAdvError
        else listWalk fuel (p + (8 + jsAdv size).toNat) b (jsSet acc name value)
    else .ok acc

/-- The `LIST` chunk decoder: 4-byte subtype tag, then the entry walk from
offset 4. -/
def listDecode (b : Bytes) : Except String (Bytes × Entries) :=
  match listWalk (b.length + 1) 4 b [] with
  | .error e => .error e
  | .ok entries => .ok (sliceList b 0 4, entries)

/-- Error for a LIST entry key whose length is not 4 on encode. -/
def entryNameError (k : Bytes) : String :=
  "Entry name must have a length of 4 (found a string of length " ++ toString k.length ++ ")"

/-- The entry loop of the `LIST` encoder: skip falsy (empty or absent)
values, require 4-character keys, and emit
`name ++ u32le(textLength + 1) ++ text ++ zero tail` where the tail is the
null terminator plus the even-padding byte of the source's
`1 + (size % 2 == 0 ? 0 : 2 - size % 2)` formula. -/
def listEncodeEntries : Entries → Except String Bytes
  | [] => .ok []
  | (name, value) :: rest =>
    if value = [] then listEncodeEntries rest
    else if name.length ≠ 4 then .error (entryNameError name)
    else
      match listEncodeEntries rest with
      | .error e => .error e
      | .ok restB =>
        .ok (name ++ u32le (value.length + 1) ++ value ++
          List.replicate
            (1 + (if (value.length + 1) % 2 = 0 then 0 else 2 - (value.length + 1) % 2)) 0 ++
          restB)

/-- The `LIST` chunk encoder: the subtype tag then the entry records. -/
def listEncode (type : Bytes) (entries : Entries) : Except String Bytes :=
  match listEncodeEntries entries with
  | .error e => .error e
  | .ok eb => .ok (type ++ eb)

/-- The byte image of the decode-side records: for each `(key, size, body)`,
`key ++ u32le size ++ body` (with `body` covering the text, terminator and
even padding, `body.length = roundUpEven size`). -/
def listRecordsBytes : List (Bytes × Nat × Bytes) → Bytes
  | [] => []
  | r :: rest => r.1 ++ u32le r.2.1 ++ r.2.2 ++ listRecordsBytes rest

/-- One encoded entry record as C4 describes it: key, u32-LE of
`textLength + 1`, the text, the null terminator and the even padding so the
record content after the 8-byte header has even length. -/
def listEntryBytes (k v : Bytes) : Bytes :=
  k ++ u32le (v.length + 1) ++ v ++
    List.replicate (if (v.length + 1) % 2 = 0 then 1 else 2) 0

/-- The entries object built by decoding a record list in order. -/
def entriesOfRecords (rs : List (Bytes × Nat × Bytes)) : Entries :=
  rs.foldl (fun acc r => jsSet acc r.1 (r.2.2.take (r.2.1 - 1))) []

/-- The encode-side byte image C4 describes: every entry with a non-empty
value contributes its record, entries with empty values are skipped. -/
def listEntriesBytes : Entries → Bytes
  | [] => []
  | e :: rest =>
    if e.2 = [] then listEntriesBytes rest else listEntryBytes e.1 e.2 ++ listEntriesBytes rest

theorem sliceList_to_zero (l : Bytes) (s : Nat) : sliceList l s 0 = [] := by
  simp [sliceList]

/-- Below `2^31 - 1` the 32-bit shift advance is round-up-to-even. -/
theorem jsAdv_eq_roundUpEven (s : Nat) (hs : s ≤ 2147483646) :
    jsAdv s = (roundUpEven s : Int) := by
  unfold jsAdv toInt32 roundUpEven
  have h1 : ((s : Int) + 1 + 2147483648) % 4294967296 - 2147483648 = (s : Int) + 1 := by
    omega
  rw [h1]
  omega

theorem adv_nonneg_toNat (s : Nat) (hs : s ≤ 2147483646) :
    ¬((8 + jsAdv s : Int) < 0) ∧ (8 + jsAdv s).toNat = 8 + roundUpEven s := by
  rw [jsAdv_eq_roundUpEven s hs]
  unfold roundUpEven
  omega

/-- The LIST entry walk also only looks at the buffer from the pointer on. -/
theorem listWalk_shift :
    ∀ (fuel : Nat) (pre rest : Bytes) (p : Nat) (acc : Entries),
      listWalk fuel (pre.length + p) (pre ++ rest) acc = listWalk fuel p rest acc := by
  intro fuel
  induction fuel with
  | zero => intro pre rest p acc; rfl
  | succ fuel ih =>
    intro pre rest p acc
    by_cases h : p < rest.length
    · have h2 : pre.length + p < (pre ++ rest).length := by
        simp only [List.length_append]; omega
      simp only [listWalk]
      rw [if_pos h2, if_pos h, Nat.add_assoc pre.length p 4, Nat.add_assoc pre.length p 8,
        sliceList_append, sliceList_append, sliceList_to_zero, sliceList_to_zero]
      have hvalue : ∀ size : Nat,
          sliceList (pre ++ rest) (pre.length + (p + 8)) (pre.length + (p + 8) + size - 1) =
            sliceList rest (p + 8) (p + 8 + size - 1) := by
        intro size
        rw [show pre.length + (p + 8) + size - 1 = pre.length + (p + 8 + size - 1) from by omega,
          sliceList_append]
      have hrec : ∀ (size : Nat) (a : Entries),
          listWalk fuel (pre.length + p + (8 + jsAdv size).toNat) (pre ++ rest) a =
            listWalk fuel (p + (8 + jsAdv size).toNat) rest a := by
        intro size a
        rw [Nat.add_assoc, ih]
      simp only [hvalue, hrec]
    · have h2 : ¬pre.length + p < (pre ++ rest).length := by
        simp only [List.length_append]; omega
      simp only [listWalk]
      rw [if_neg h2, if_neg h]

/-- One step of the entry walk over a well-formed record at the front (the
declared size below `2^31 - 1`, where the shift advance walks forward). -/
theorem listWalk_step (k : Bytes) (s : Nat) (body rest : Bytes) (fuel : Nat) (acc : Entries)
    (h4 : k.length = 4) (hs : s ≤ 2147483646) (hb : body.length = roundUpEven s) :
    listWalk (fuel + 1) 0 (k ++ u32le s ++ body ++ rest) acc =
      listWalk fuel 0 rest (jsSet acc k (body.take (s - 1))) := by
  obtain ⟨hneg, htn⟩ := adv_nonneg_toNat s hs
  have hs32 : s < 4294967296 := by omega
  have hpos : 0 < (k ++ u32le s ++ body ++ rest).length := by
    simp [List.length_append, h4]
  have hname : sliceList (k ++ u32le s ++ body ++ rest) 0 4 = k := by
    rw [sliceList_zero_take, List.append_assoc, List.append_assoc]
    exact take_len k _ 4 h4
  have hsz : sliceList (k ++ u32le s ++ body ++ rest) 4 8 = u32le s := by
    rw [List.append_assoc, List.append_assoc, sliceList_seg k _ 4 8 h4]
    exact take_len (u32le s) _ _ (u32le_length _)
  have hvalue : sliceList (k ++ u32le s ++ body ++ rest) 8 (8 + s - 1) =
      body.take (s - 1) := by
    rw [List.append_assoc,
      sliceList_seg (k ++ u32le s) _ 8 (8 + s - 1)
        (by simp only [List.length_append, h4, u32le_length]),
      show 8 + s - 1 - 8 = s - 1 from by omega]
    exact List.take_append_of_le_length (by rw [hb]; unfold roundUpEven; omega)
  have hrec : ∀ a : Entries,
      listWalk fuel ((8 + jsAdv s).toNat) (k ++ u32le s ++ body ++ rest) a =
        listWalk fuel 0 rest a := by
    intro a
    rw [htn, show 8 + roundUpEven s = (k ++ u32le s ++ body).length + 0 from by
        simp only [List.length_append, h4, u32le_length, hb]; omega,
      listWalk_shift]
  simp only [listWalk, Nat.zero_add]
  rw [if_pos hpos, hsz, readU32_u32le, Nat.mod_eq_of_lt hs32]
  simp only [hname, hvalue, hrec]
  rw [if_neg hneg]

theorem length_le_listRecordsBytes :
    ∀ rs : List (Bytes × Nat × Bytes), rs.length ≤ (listRecordsBytes rs).length := by
  intro rs
  induction rs with
  | nil => simp [listRecordsBytes]
  | cons r rs ih =>
    simp only [listRecordsBytes, List.length_append, List.length_cons, u32le_length]
    omega

/-- Walking a concatenation of well-formed records folds `jsSet` over them. -/
theorem listWalk_records :
    ∀ (rs : List (Bytes × Nat × Bytes)) (fuel : Nat) (acc : Entries),
      (∀ r ∈ rs, r.1.length = 4 ∧ r.2.1 ≤ 2147483646 ∧ r.2.2.length = roundUpEven r.2.1) →
      rs.length < fuel →
      listWalk fuel 0 (listRecordsBytes rs) acc =
        .ok (rs.foldl (fun a r => jsSet a r.1 (r.2.2.take (r.2.1 - 1))) acc) := by
  intro rs
  induction rs with
  | nil =>
    intro fuel acc _ hf
    cases fuel with
    | zero => omega
    | succ f => simp [listWalk, listRecordsBytes]
  | cons r rs ih =>
    intro fuel acc h hf
    obtain ⟨h4, hs, hb⟩ := h r (by simp)
    cases fuel with
    | zero => omega
    | succ f =>
      rw [listRecordsBytes, listWalk_step r.1 r.2.1 r.2.2 _ f acc h4 hs hb,
        ih f _ (fun v hv => h v (by simp [hv])) (by simpa using Nat.lt_of_succ_lt_succ hf)]
      rfl

theorem listEncodeEntries_eq :
    ∀ entries : Entries, (∀ e ∈ entries, e.2 ≠ [] → e.1.length = 4) →
      listEncodeEntries entries = .ok (listEntriesBytes entries) := by
  intro entries
  induction entries with
  | nil => intro _; rfl
  | cons e rest ih =>
    intro h
    have hrest := ih (fun e0 he0 => h e0 (by simp [he0]))
    obtain ⟨name, value⟩ := e
    simp only [listEncodeEntries, listEntriesBytes]
    by_cases hv : value = []
    · rw [if_pos hv, hrest, if_pos hv]
    · rw [if_neg hv, if_neg (by simp [h (name, value) (by simp) hv]), hrest, if_neg hv]
      simp only [listEntryBytes]
      rcases Nat.mod_two_eq_zero_or_one (value.length + 1) with hm | hm <;>
        simp [hm, List.append_assoc]

theorem listEncodeEntries_err :
    ∀ (pre : Entries) (k v : Bytes) (post : Entries),
      (∀ e ∈ pre, e.2 ≠ [] → e.1.length = 4) → v ≠ [] → k.length ≠ 4 →
      listEncodeEntries (pre ++ (k, v) :: post) = .error (entryNameError k) := by
  intro pre
  induction pre with
  | nil =>
    intro k v post _ hv hk
    simp only [List.nil_append, listEncodeEntries]
    rw [if_neg hv, if_pos hk]
  | cons e pre ih =>
    intro k v post h hv hk
    have hrest := ih k v post (fun e0 he0 => h e0 (by simp [he0])) hv hk
    obtain ⟨name, value⟩ := e
    simp only [List.cons_append, listEncodeEntries, List.append_eq]
    by_cases hval : value = []
    · rw [if_pos hval, hrest]
    · rw [if_neg hval, if_neg (by simp [h (name, value) (by simp) hval])]
      simp only [hrest]

/-- The entry walk as C4 words it: the cursor always advances by
`8 + roundUpToEven size`, whatever the declared u32 size.  This definition
follows the claim's words, not the source — the source computes the advance
with 32-bit signed shifts (`jsAdv`) — and the counterexample below compares
the two on a size the shifts wrap. -/
def claimedListWalk : Nat → Nat → Bytes → Entries → Except String Entries
  | 0, _, _, acc => .ok acc
  | fuel + 1, p, b, acc =>
    if p < b.length then
      let name := sliceList b p (p + 4)
      match readU32 (sliceList b (p + 4) (p + 8)) with
      | .error e => .error e
      | .ok none => .ok (jsSet acc name (sliceList b (p + 8) 0))
      | .ok (some size) =>
        let value := sliceList b (p + 8) (p + 8 + size - 1)
        claimedListWalk fuel (p + 8 + roundUpEven size) b (jsSet acc name value)
    else .ok acc

/-- C4 is refuted at declared sizes of `2^31 - 1` and above: the advance is
the 32-bit signed shift expression, not an unbounded round-up-to-even.  A
first record declaring size `2^32 - 1` wraps to advance `8 + 0`: the real
decode re-enters the span the declared size covers and reads a second
record there, while the claimed `8 + roundUpToEven(size)` advance
(`claimedListWalk`) steps past the end and returns the first entry only. -/
theorem listDecode_shift_cex_c4 :
    listDecode [73, 78, 70, 79, 73, 65, 82, 84, 255, 255, 255, 255,
        73, 80, 82, 84, 2, 0, 0, 0, 48, 0] =
      .ok ([73, 78, 70, 79],
        [([73, 65, 82, 84], [73, 80, 82, 84, 2, 0, 0, 0, 48, 0]),
         ([73, 80, 82, 84], [48])]) ∧
    claimedListWalk
      ((([73, 78, 70, 79, 73, 65, 82, 84, 255, 255, 255, 255,
          73, 80, 82, 84, 2, 0, 0, 0, 48, 0] : Bytes).length) + 1) 4
      [73, 78, 70, 79, 73, 65, 82, 84, 255, 255, 255, 255,
        73, 80, 82, 84, 2, 0, 0, 0, 48, 0] [] =
      .ok [([73, 65, 82, 84], [73, 80, 82, 84, 2, 0, 0, 0, 48, 0])] ∧
    ([([73, 65, 82, 84], [73, 80, 82, 84, 2, 0, 0, 0, 48, 0]),
      ([73, 80, 82, 84], [48])] : Entries) ≠
      [([73, 65, 82, 84], [73, 80, 82, 84, 2, 0, 0, 0, 48, 0])] :=
  ⟨by decide, by decide, by decide⟩

/-- C4 (amended): the LIST codec.  Decode: after the 4-byte subtype, each
record `key(4) ++ u32le(size) ++ body` (the body holding the `size - 1`
text bytes, the null terminator counted inside `size`, and the even
padding, so `body.length = roundUpToEven size`) stores
`entries[key] = text` with `text` the first `size - 1` body bytes,
advancing by `8 + roundUpToEven size` until the payload is exhausted —
**provided every declared size is at most `2^31 - 2`**: the advance is
computed with JS 32-bit signed shifts, so at `2^31 - 1` and above it wraps
(zero, small or negative) instead of rounding up, as the counterexample
shows.  Encode: every entry with a non-empty value yields
`key ++ u32le(textLength + 1) ++ text ++ terminator/padding` bringing the
record content to even length; a non-empty entry whose key is not 4
characters fails; entries with empty values are skipped entirely. -/
theorem listCodec_c4 :
    (∀ (type4 : Bytes) (rs : List (Bytes × Nat × Bytes)), type4.length = 4 →
      (∀ r ∈ rs, r.1.length = 4 ∧ r.2.1 ≤ 2147483646 ∧ r.2.2.length = roundUpEven r.2.1) →
      listDecode (type4 ++ listRecordsBytes rs) = .ok (type4, entriesOfRecords rs)) ∧
    (∀ (type : Bytes) (entries : Entries),
      (∀ e ∈ entries, e.2 ≠ [] → e.1.length = 4) →
      listEncode type entries = .ok (type ++ listEntriesBytes entries)) ∧
    (∀ (type : Bytes) (pre : Entries) (k v : Bytes) (post : Entries),
      (∀ e ∈ pre, e.2 ≠ [] → e.1.length = 4) → v ≠ [] → k.length ≠ 4 →
      listEncode type (pre ++ (k, v) :: post) = .error (entryNameError k)) := by
  refine ⟨fun type4 rs h4 hrs => ?_, fun type entries h => ?_,
    fun type pre k v post h hv hk => ?_⟩
  · unfold listDecode
    have hlen := length_le_listRecordsBytes rs
    have hwalk : listWalk ((type4 ++ listRecordsBytes rs).length + 1) 4
        (type4 ++ listRecordsBytes rs) [] = .ok (entriesOfRecords rs) := by
      rw [show (4 : Nat) = type4.length + 0 from by omega, listWalk_shift,
        listWalk_records rs _ [] hrs
          (by simp only [List.length_append]; omega)]
      rfl
    rw [hwalk, sliceList_zero_take, take_len type4 _ 4 h4]
  · unfold listEncode
    rw [listEncodeEntries_eq entries h]
  · unfold listEncode
    rw [listEncodeEntries_err pre k v post h hv hk]

theorem listCodec_c4_witness :
    listDecode ([73, 78, 70, 79] ++ listRecordsBytes [([73, 65, 82, 84], 2, [65, 0])]) =
      .ok ([73, 78, 70, 79], entriesOfRecords [([73, 65, 82, 84], 2, [65, 0])]) ∧
    listEncode [73, 78, 70, 79] [([73, 67, 77, 84], [104, 105]), ([88, 88, 88, 88], [])] =
      .ok ([73, 78, 70, 79] ++
        listEntriesBytes [([73, 67, 77, 84], [104, 105]), ([88, 88, 88, 88], [])]) ∧
    listEncode [73, 78, 70, 79] ([] ++ ([65, 66, 67], [48]) :: []) =
      .error (entryNameError [65, 66, 67]) :=
  ⟨listCodec_c4.1 [73, 78, 70, 79] [([73, 65, 82, 84], 2, [65, 0])] (by decide) (by decide),
   listCodec_c4.2.1 [73, 78, 70, 79]
     [([73, 67, 77, 84], [104, 105]), ([88, 88, 88, 88], [])] (by decide),
   listCodec_c4.2.2 [73, 78, 70, 79] [] [65, 66, 67] [48] [] (by simp) (by decide) (by decide)⟩

/-! ## Sample domain table and typed-array numerics (`internal.ts`)

JS numbers are modelled as exact rationals.  Storing into a typed array
quantizes: integer arrays truncate toward zero and wrap (ToUint8 / ToInt16 /
ToInt32), float arrays round to the nearest representable value at the
storage width (IEEE 754, round half to even). -/

/-- The element kinds of the `dtypes` table. -/
inductive DKind
  | u8 | i16 | i32 | f16 | f32 | f64
deriving DecidableEq, Repr

/-- Element width in bytes. -/
def elemSize : DKind → Nat
  | .u8 => 1
  | .i16 => 2
  | .i32 => 4
  | .f16 => 2
  | .f32 => 4
  | .f64 => 8

/-- `rawMin` of the dtypes table. -/
def rawMin : DKind → ℚ
  | .u8 => 0
  | .i16 => -32768
  | .i32 => -2147483648
  | _ => -1

/-- `rawMax` of the dtypes table. -/
def rawMax : DKind → ℚ
  | .u8 => 255
  | .i16 => 32767
  | .i32 => 2147483647
  | _ => 1

/-- The `dtypes` table rows: per (audioFormat, bitsPerChannel). -/
def dtypes (af bits : Nat) : Option DKind :=
  if af = 1 then
    if bits = 8 then some .u8
    else if bits = 16 then some .i16
    else if bits = 32 then some .i32
    else none
  else if af = 3 then
    if bits = 16 then some .f16
    else if bits = 32 then some .f32
    else if bits = 64 then some .f64
    else none
  else none

/-- The unsupported-bits error of the conversion layer; an undefined
`bitsPerChannel` prints as `undefined`. -/
def unsupportedBitsError (b : Option Nat) : String :=
  "Unsupported bits per channel: " ++ (match b with
    | some v => toString v
    | none => "undefined")

/-- `dtypes[format.audioFormat][format.bitsPerChannel]` followed by the
`dtype == null` check: an undefined or unknown `audioFormat` makes the first
indexing yield `undefined` and the second throw a `TypeError`; a missing row
entry fails with the unsupported-bits error. -/
def dtypeLookup (af bits : Option Nat) : Except String DKind :=
  match af with
  | none => .error typeErrorUndefined
  | some a =>
    if a = 1 ∨ a = 3 then
      match bits with
      | none => .error (unsupportedBitsError none)
      | some bv =>
        match dtypes a bv with
        | some d => .ok d
        | none => .error (unsupportedBitsError (some bv))
    else .error typeErrorUndefined

/-- Truncation toward zero (the integer part JS `ToIntegerOrInfinity` takes). -/
def ratTrunc (q : ℚ) : ℤ := if 0 ≤ q then ⌊q⌋ else ⌈q⌉

/-- Round to nearest, ties to even — the IEEE rounding typed-array float
stores use. -/
def roundNE (q : ℚ) : ℤ :=
  if q - ⌊q⌋ < 1 / 2 then ⌊q⌋
  else if q - ⌊q⌋ > 1 / 2 then ⌊q⌋ + 1
  else if ⌊q⌋ % 2 = 0 then ⌊q⌋ else ⌊q⌋ + 1

/-- Assembly of an IEEE-754 bit pattern from sign, exponent and rounded
significand: overflow to infinity, exponent field 0 for subnormals. -/
def encAssemble (eb mb s : Nat) (e1 m1 : ℤ) : Nat :=
  if e1 > 2 ^ (eb - 1) - 1 then s * 2 ^ (eb + mb) + (2 ^ eb - 1) * 2 ^ mb
  else if m1 < 2 ^ mb then s * 2 ^ (eb + mb) + m1.toNat
  else s * 2 ^ (eb + mb) + (e1 + (2 ^ (eb - 1) - 1)).toNat * 2 ^ mb + (m1 - 2 ^ mb).toNat

/-- IEEE-754 bit pattern of a rational at `eb` exponent bits and `mb`
mantissa bits, rounding to nearest even, overflowing to infinity. -/
def encBits (eb mb : Nat) (q : ℚ) : Nat :=
  if q = 0 then 0 else
  let s : Nat := if q < 0 then 1 else 0
  let a : ℚ := |q|
  let e0 : ℤ := max (Int.log 2 a) (1 - (2 ^ (eb - 1) - 1))
  let m0 : ℤ := roundNE (a * 2 ^ ((mb : ℤ) - e0))
  if m0 ≥ 2 ^ (mb + 1) then encAssemble eb mb s (e0 + 1) (2 ^ mb)
  else encAssemble eb mb s e0 m0

/-- The rational value of an IEEE-754 bit pattern.  All-ones exponents
encode infinities and NaNs, which have no rational value; the model reads
them as 0 (they never arise from storing finite samples). -/
def decBits (eb mb : Nat) (p : Nat) : ℚ :=
  let s := p / 2 ^ (eb + mb) % 2
  let ef := p / 2 ^ mb % 2 ^ eb
  let m := p % 2 ^ mb
  let bias : ℤ := 2 ^ (eb - 1) - 1
  let mag : ℚ :=
    if ef = 0 then (m : ℚ) * 2 ^ (1 - bias - mb)
    else if ef = 2 ^ eb - 1 then 0
    else ((2 ^ mb + m : ℕ) : ℚ) * 2 ^ ((ef : ℤ) - bias - mb)
  if s = 1 then -mag else mag

/-- Little-endian bytes of `n`, `w` bytes wide (mod 2^(8w)). -/
def natToBytesLE (w n : Nat) : Bytes :=
  match w with
  | 0 => []
  | w + 1 => n % 256 :: natToBytesLE w (n / 256)

/-- The unsigned value of little-endian bytes. -/
def bytesToNatLE : Bytes → Nat
  | [] => 0
  | b :: r => b + 256 * bytesToNatLE r

/-- Two's-complement reading of an unsigned `w`-bit value. -/
def signedOfNat (w u : Nat) : ℤ :=
  ((u % 2 ^ w : ℕ) : ℤ) - (if u % 2 ^ w ≥ 2 ^ (w - 1) then 2 ^ w else 0)

/-- The bytes a typed-array element store writes for value `x`. -/
def storeElem (d : DKind) (x : ℚ) : Bytes :=
  match d with
  | .u8 => natToBytesLE 1 (ratTrunc x % 256).toNat
  | .i16 => natToBytesLE 2 (ratTrunc x % 65536).toNat
  | .i32 => natToBytesLE 4 (ratTrunc x % 4294967296).toNat
  | .f16 => natToBytesLE 2 (encBits 5 10 x)
  | .f32 => natToBytesLE 4 (encBits 8 23 x)
  | .f64 => natToBytesLE 8 (encBits 11 52 x)

/-- The value a typed-array element read yields from its bytes. -/
def decodeElemBytes (d : DKind) (bs : Bytes) : ℚ :=
  match d with
  | .u8 => ((bytesToNatLE bs % 256 : ℕ) : ℚ)
  | .i16 => ((signedOfNat 16 (bytesToNatLE bs) : ℤ) : ℚ)
  | .i32 => ((signedOfNat 32 (bytesToNatLE bs) : ℤ) : ℚ)
  | .f16 => decBits 5 10 (bytesToNatLE bs)
  | .f32 => decBits 8 23 (bytesToNatLE bs)
  | .f64 => decBits 11 52 (bytesToNatLE bs)

/-- The value held by a typed array right after storing `x`: the
quantization of `x` at kind `d`. -/
def storeVal (d : DKind) (x : ℚ) : ℚ :=
  match d with
  | .u8 => ((ratTrunc x % 256 : ℤ) : ℚ)
  | .i16 => (((ratTrunc x + 32768) % 65536 - 32768 : ℤ) : ℚ)
  | .i32 => (((ratTrunc x + 2147483648) % 4294967296 - 2147483648 : ℤ) : ℚ)
  | .f16 => decBits 5 10 (encBits 5 10 x)
  | .f32 => decBits 8 23 (encBits 8 23 x)
  | .f64 => decBits 11 52 (encBits 11 52 x)

theorem bytesToNatLE_natToBytesLE (w : Nat) :
    ∀ n : Nat, bytesToNatLE (natToBytesLE w n) = n % 256 ^ w := by
  induction w with
  | zero => intro n; simp [natToBytesLE, bytesToNatLE, Nat.mod_one]
  | succ w ih =>
    intro n
    simp only [natToBytesLE, bytesToNatLE, ih]
    rw [pow_succ', Nat.mod_mul]

theorem storeElem_length (d : DKind) (x : ℚ) : (storeElem d x).length = elemSize d := by
  cases d <;> simp [storeElem, elemSize, natToBytesLE]

theorem roundNE_nonneg (q : ℚ) (h : 0 ≤ q) : 0 ≤ roundNE q := by
  have hf : 0 ≤ ⌊q⌋ := Int.floor_nonneg.mpr h
  unfold roundNE
  split
  · exact hf
  · split
    · omega
    · split <;> omega

theorem encAssemble_lt (eb mb s : Nat) (e1 m1 : ℤ) (heb : 1 ≤ eb) (hs : s ≤ 1)
    (hm1 : 0 ≤ m1) (hm1lt : m1 < 2 ^ (mb + 1)) :
    encAssemble eb mb s e1 m1 < 2 ^ (eb + mb + 1) := by
  have hA : 2 ≤ 2 ^ eb := by
    calc 2 = 2 ^ 1 := by norm_num
    _ ≤ 2 ^ eb := Nat.pow_le_pow_right (by norm_num) heb
  have hB : 1 ≤ 2 ^ mb := Nat.one_le_two_pow
  have hAB : (2 : Nat) ^ (eb + mb) = 2 ^ eb * 2 ^ mb := pow_add 2 eb mb
  have hTop : (2 : Nat) ^ (eb + mb + 1) = 2 ^ eb * 2 ^ mb + 2 ^ eb * 2 ^ mb := by
    rw [pow_succ, hAB]; ring
  have hmul_s : s * 2 ^ (eb + mb) ≤ 2 ^ (eb + mb) := by
    calc s * 2 ^ (eb + mb) ≤ 1 * 2 ^ (eb + mb) := Nat.mul_le_mul_right _ hs
    _ = 2 ^ (eb + mb) := one_mul _
  have hBmono : 2 ^ mb ≤ 2 ^ (eb + mb) := Nat.pow_le_pow_right (by norm_num) (by omega)
  have h2B : 2 * 2 ^ mb ≤ 2 ^ eb * 2 ^ mb := Nat.mul_le_mul_right _ hA
  have hBZ : ((2 : Nat) ^ mb : ℤ) = (2 : ℤ) ^ mb := by push_cast; rfl
  unfold encAssemble
  split
  · have h2 : (2 ^ eb - 1) * 2 ^ mb + 2 ^ mb = 2 ^ eb * 2 ^ mb := by
      rw [Nat.sub_mul, one_mul]
      omega
    omega
  · split
    next hlt =>
      have hm : m1.toNat < 2 ^ mb := by
        have h1 : m1 < ((2 : Nat) ^ mb : ℤ) := by rw [hBZ]; exact hlt
        omega
      omega
    next he1 hge =>
      have hcast : ((2 ^ eb : ℕ) : ℤ) = 2 * ((2 ^ (eb - 1) : ℕ) : ℤ) := by
        push_cast
        rw [← pow_succ']
        congr 1
        omega
      have hpz : ((2 ^ (eb - 1) : ℕ) : ℤ) = (2 : ℤ) ^ (eb - 1) := by push_cast; rfl
      have hexp : (e1 + ((2 : ℤ) ^ (eb - 1) - 1)).toNat ≤ 2 ^ eb - 2 := by
        rw [← hpz]
        omega
      have hmt : (m1 - 2 ^ mb).toNat < 2 ^ mb := by
        have h1 : m1 < 2 * ((2 : Nat) ^ mb : ℤ) := by
          rw [hBZ]
          calc m1 < 2 ^ (mb + 1) := hm1lt
          _ = 2 * (2 : ℤ) ^ mb := by rw [pow_succ]; ring
        have h2 : ((2 : Nat) ^ mb : ℤ) = (2 : ℤ) ^ mb := hBZ
        omega
      have h2 : (e1 + ((2 : ℤ) ^ (eb - 1) - 1)).toNat * 2 ^ mb ≤ (2 ^ eb - 2) * 2 ^ mb :=
        Nat.mul_le_mul_right _ hexp
      have h3 : (2 ^ eb - 2) * 2 ^ mb + 2 * 2 ^ mb = 2 ^ eb * 2 ^ mb := by
        rw [Nat.sub_mul]
        omega
      omega

theorem encBits_lt (eb mb : Nat) (q : ℚ) (heb : 1 ≤ eb) :
    encBits eb mb q < 2 ^ (eb + mb + 1) := by
  unfold encBits
  by_cases h0 : q = 0
  · rw [if_pos h0]
    positivity
  · rw [if_neg h0]
    have hs : (if q < 0 then 1 else 0) ≤ 1 := by split <;> omega
    dsimp only
    split
    next hge =>
      refine encAssemble_lt eb mb _ _ _ heb hs ?_ ?_
      · exact pow_nonneg (by norm_num) mb
      · have h1 : (0 : ℤ) < 2 ^ mb := by positivity
        rw [pow_succ]
        omega
    next hlt =>
      refine encAssemble_lt eb mb _ _ _ heb hs ?_ ?_
      · exact roundNE_nonneg _ (mul_nonneg (abs_nonneg q) (zpow_nonneg (by norm_num) _))
      · omega

/-- An element read right after an element store yields the quantized value. -/
theorem decodeElemBytes_storeElem (d : DKind) (x : ℚ) :
    decodeElemBytes d (storeElem d x) = storeVal d x := by
  cases d
  case u8 =>
    simp only [decodeElemBytes, storeElem, storeVal, bytesToNatLE_natToBytesLE]
    have h : (((ratTrunc x % 256).toNat % 256 ^ 1 % 256 : ℕ) : ℤ) = ratTrunc x % 256 := by
      push_cast
      omega
    calc (((ratTrunc x % 256).toNat % 256 ^ 1 % 256 : ℕ) : ℚ)
        = ((((ratTrunc x % 256).toNat % 256 ^ 1 % 256 : ℕ) : ℤ) : ℚ) :=
          (Int.cast_natCast _).symm
      _ = ((ratTrunc x % 256 : ℤ) : ℚ) := by rw [h]
  case i16 =>
    simp only [decodeElemBytes, storeElem, storeVal, bytesToNatLE_natToBytesLE]
    have h : (signedOfNat 16 ((ratTrunc x % 65536).toNat % 256 ^ 2) : ℤ) =
        (ratTrunc x + 32768) % 65536 - 32768 := by
      unfold signedOfNat
      norm_num
      split <;> omega
    rw [h]
  case i32 =>
    simp only [decodeElemBytes, storeElem, storeVal, bytesToNatLE_natToBytesLE]
    have h : (signedOfNat 32 ((ratTrunc x % 4294967296).toNat % 256 ^ 4) : ℤ) =
        (ratTrunc x + 2147483648) % 4294967296 - 2147483648 := by
      unfold signedOfNat
      norm_num
      split <;> omega
    rw [h]
  case f16 =>
    simp only [decodeElemBytes, storeElem, storeVal, bytesToNatLE_natToBytesLE]
    rw [Nat.mod_eq_of_lt (by
      have h := encBits_lt 5 10 x (by norm_num)
      norm_num at h ⊢
      omega)]
  case f32 =>
    simp only [decodeElemBytes, storeElem, storeVal, bytesToNatLE_natToBytesLE]
    rw [Nat.mod_eq_of_lt (by
      have h := encBits_lt 8 23 x (by norm_num)
      norm_num at h ⊢
      omega)]
  case f64 =>
    simp only [decodeElemBytes, storeElem, storeVal, bytesToNatLE_natToBytesLE]
    rw [Nat.mod_eq_of_lt (by
      have h := encBits_lt 11 52 x (by norm_num)
      norm_num at h ⊢
      omega)]

/-! ## The WAVE chunk sum type and codec registry -/

/-- `WaveRiffChunk`: the tagged union of `fmt `, `LIST` and `data` chunks. -/
inductive WaveRiffChunk
  | fmt (f : WaveFormatChunk)
  | list (type : Bytes) (entries : Entries)
  | data (bytes : Bytes)
deriving DecidableEq, Repr

/-- The id tag of each chunk variant (`"fmt "`, `"LIST"`, `"data"`). -/
def waveChunkId : WaveRiffChunk → Bytes
  | .fmt _ => [102, 109, 116, 32]
  | .list _ _ => [76, 73, 83, 84]
  | .data _ => [100, 97, 116, 97]

/-- A data value whose shape does not match the requested coding mode;
unreachable through the TypeScript types. -/
def modeMismatch : String := "model: data representation does not match the coding mode"

/-- The `fmt` codec of `wave.ts`.  Encode never fails; the registry only
hands it chunks carrying the `fmt ` id, so the other variants are
unreachable (TypeScript's types exclude them). -/
def fmtCodec : RiffChunkCodec WaveRiffChunk where
  enc c :=
    match c with
    | .fmt f => .ok (fmtEncode f)
    | _ => .error modeMismatch
  dec b :=
    match fmtDecode b with
    | .error e => .error e
    | .ok f => .ok (.fmt f)

/-- The `list` codec of `wave.ts`. -/
def listChunkCodec : RiffChunkCodec WaveRiffChunk where
  enc c :=
    match c with
    | .list t es => listEncode t es
    | _ => .error modeMismatch
  dec b :=
    match listDecode b with
    | .error e => .error e
    | .ok (t, es) => .ok (.list t es)

/-- The passthrough `data` codec of `wave.ts`. -/
def dataCodec : RiffChunkCodec WaveRiffChunk where
  enc c :=
    match c with
    | .data b => .ok b
    | _ => .error modeMismatch
  dec b := .ok (.data b)

/-- `waveCodec`: the chunk registry keyed by `"fmt "`, `"LIST"`, `"data"`. -/
def waveCodec : CodecReg WaveRiffChunk := fun id =>
  if id = [102, 109, 116, 32] then some fmtCodec
  else if id = [76, 73, 83, 84] then some listChunkCodec
  else if id = [100, 97, 116, 97] then some dataCodec
  else none

/-! ## The coding-mode conversion layer (`encode.ts` / `decode.ts`) -/

/-- The four coding modes of `WaveCodingModeMap`. -/
inductive CodingMode
  | rawBlob | rawBuffer | channelsFmt | channelsFloat32
deriving DecidableEq, Repr

/-- The mode-dependent `data` representation of a `WaveFile`: raw bytes
(blob or buffer) or per-channel sample arrays (used by both channel
modes — raw-valued for `channels-fmt`, normalized for `channels-float32`). -/
inductive WaveData
  | blob (bytes : Bytes)
  | buffer (bytes : Bytes)
  | channels (chs : List (List ℚ))
deriving DecidableEq, Repr

/-- `TrackInfo` of `types.ts`; text fields as byte strings. -/
structure TrackInfo where
  comment : Option Bytes := none
  artist : Option Bytes := none
  copyrightDate : Option Bytes := none
  trackName : Option Bytes := none
  albumName : Option Bytes := none
  albumTrackId : Option Int := none
  software : Option Bytes := none
deriving DecidableEq, Repr

/-- `WaveFile` of `types.ts`. -/
structure WaveFile where
  format : WaveFormatChunk
  info : Option TrackInfo
  data : WaveData
deriving DecidableEq, Repr

/-- `RangeError` of `new ArrayType(buffer)` on a misaligned byte length. -/
def rangeErrorView : String :=
  "RangeError: byte length of typed array should be a multiple of its element size"

/-- `RangeError` of `new ArrayType(n)` for a non-integral length. -/
def rangeErrorLen : String := "RangeError: invalid typed array length"

/-- The conversion loop with zero channels and a non-empty buffer divides
the sample count by zero (`Infinity`) and never terminates in JS; the model
returns this error instead. -/
def nonTermError : String := "model: non-terminating conversion loop"

/-- The elements of a data payload as the chosen typed array sees them. -/
def bytesToElems (d : DKind) (bs : Bytes) : List ℚ :=
  (List.range (bs.length / elemSize d)).map
    (fun i => decodeElemBytes d (sliceList bs (i * elemSize d) ((i + 1) * elemSize d)))

/-- The inverse affine map of `encodeWav` in `channels-float32` mode
(`raw = (p + 1) / 2 * (rawMax - rawMin) + rawMin`); the identity in
`channels-fmt` mode. -/
def convSample (d : DKind) (fromF32 : Bool) (p : ℚ) : ℚ :=
  if fromF32 then (p + 1) / 2 * (rawMax d - rawMin d) + rawMin d else p

/-- The normalization of `decodeWav` in `channels-float32` mode
(`normalized = ((v - rawMin) / (rawMax - rawMin)) * 2 - 1`); the identity in
`channels-fmt` mode.  (JS stores the normalized value into a `Float32Array`,
rounding it to binary32; the model keeps it exact.) -/
def normSample (d : DKind) (toF32 : Bool) (v : ℚ) : ℚ :=
  if toF32 then (v - rawMin d) / (rawMax d - rawMin d) * 2 - 1 else v

/-- The channel-mode branch of `encodeWav`: look up the dtype, take the
sample count from channel 0 (`channels[0].length` throws on an empty
channel list), fill the interleaved typed array — element `i*N + ch` holds
channel `ch`, sample `i` — and return its bytes.  Reading a channel index
beyond the provided arrays throws; reading a sample index beyond a channel's
length yields `undefined`, stored as 0 in integer arrays (the model also
uses 0 for float arrays, where JS would store NaN; unreachable with
equal-length channels).  An `undefined` channel count gives the typed array
length NaN, i.e. 0: every write lands out of bounds and is dropped. -/
def convertToRaw (fc : WaveFormatChunk) (chs : List (List ℚ)) (fromF32 : Bool) :
    Except String Bytes :=
  match dtypeLookup fc.audioFormat fc.bitsPerChannel with
  | .error e => .error e
  | .ok d =>
    match chs with
    | [] => .error typeErrorUndefined
    | c0 :: _ =>
      let S := c0.length
      match fc.channels with
      | none => .ok []
      | some nch =>
        if 1 ≤ S ∧ chs.length < nch then .error typeErrorUndefined
        else
          .ok (List.flatten ((List.range (S * nch)).map (fun j =>
            storeElem d (convSample d fromF32 ((chs.getD (j % nch) []).getD (j / nch) 0)))))

/-- The channel-mode branch of `decodeWav`: look up the dtype, reinterpret
the payload as a typed array (misaligned lengths throw), build one array per
channel of `samples = byteLength / (bitsPerChannel * channels / 8)` entries
(a fractional count throws at array construction when there is at least one
channel), and de-interleave: channel `ch`, sample `i` is element
`i*N + ch`.  An `undefined` channel count makes `new Array(undefined)` a
single-slot array whose one channel stays empty (`samples` is NaN). -/
def convertFromRaw (fc : WaveFormatChunk) (bytes : Bytes) (toF32 : Bool) :
    Except String (List (List ℚ)) :=
  match dtypeLookup fc.audioFormat fc.bitsPerChannel with
  | .error e => .error e
  | .ok d =>
    match fc.channels with
    | none => if bytes.length % elemSize d ≠ 0 then .error rangeErrorView else .ok [[]]
    | some nch =>
      if bytes.length % elemSize d ≠ 0 then .error rangeErrorView
      else if nch = 0 then
        if bytes.length = 0 then .ok [] else .error nonTermError
      else if bytes.length % (elemSize d * nch) ≠ 0 then .error rangeErrorLen
      else
        let S := bytes.length / (elemSize d * nch)
        let content := bytesToElems d bytes
        .ok ((List.range nch).map (fun ch =>
          (List.range S).map (fun i =>
            normSample d toF32 (content.getD (i * nch + ch) 0))))

/-- ASCII decimal digits of an integer, the bytes of JS's
template-literal rendering of `albumTrackId`. -/
def intToDecBytes (n : Int) : Bytes := (toString n).toList.map Char.toNat

/-- Model of JS unary `+` on an entry string, as used for `IPRT`: an
optional minus sign and decimal digits; other strings give NaN in JS,
modelled here as 0 (never exercised by the theorems). -/
def decVal : Bytes → Option Nat
  | [] => some 0
  | b :: r =>
    if 48 ≤ b ∧ b ≤ 57 then (decVal r).map (fun v => (b - 48) * 10 ^ r.length + v)
    else none

def jsStringToInt (s : Bytes) : Int :=
  match s with
  | 45 :: r =>
    (match decVal r with
     | some v => -(v : Int)
     | none => 0)
  | _ =>
    (match decVal s with
     | some v => (v : Int)
     | none => 0)

/-- Property lookup in a LIST entries object; an absent key reads as the
empty (falsy) string. -/
def getEntry (es : Entries) (k : Bytes) : Bytes :=
  match es with
  | [] => []
  | (k0, v0) :: rest => if k0 = k then v0 else getEntry rest k

/-- A truthy entry value, or `none`. -/
def optEntry (es : Entries) (k : Bytes) : Option Bytes :=
  match getEntry es k with
  | [] => none
  | v => some v

/-- The `TrackInfo` projection `decodeWav` builds from a `LIST`/`INFO`
chunk's entries (fields present only for truthy entry values). -/
def projectTrack (es : Entries) : TrackInfo where
  comment := optEntry es [73, 67, 77, 84]
  artist := optEntry es [73, 65, 82, 84]
  trackName := optEntry es [73, 78, 65, 77]
  albumName := optEntry es [73, 80, 82, 68]
  albumTrackId :=
    match getEntry es [73, 80, 82, 84] with
    | [] => none
    | v => some (jsStringToInt v)
  copyrightDate := optEntry es [73, 67, 82, 68]
  software := optEntry es [73, 83, 70, 84]

/-- Append an entry for a truthy optional field (`if (x) entries.K = x`). -/
def pushOpt (es : Entries) (k : Bytes) (v : Option Bytes) : Entries :=
  match v with
  | some s => if s = [] then es else es ++ [(k, s)]
  | none => es

/-- The `infoEntries` object `encodeWav` builds from `wav.info`, in source
order ICMT, IART, INAM, IPRD, IPRT (a non-null `albumTrackId` rendered in
decimal), ICRD, ISFT. -/
def buildEntries (ti : TrackInfo) : Entries :=
  let e1 := pushOpt [] [73, 67, 77, 84] ti.comment
  let e2 := pushOpt e1 [73, 65, 82, 84] ti.artist
  let e3 := pushOpt e2 [73, 78, 65, 77] ti.trackName
  let e4 := pushOpt e3 [73, 80, 82, 68] ti.albumName
  let e5 :=
    match ti.albumTrackId with
    | some n => e4 ++ [([73, 80, 82, 84], intToDecBytes n)]
    | none => e4
  let e6 := pushOpt e5 [73, 67, 82, 68] ti.copyrightDate
  pushOpt e6 [73, 83, 70, 84] ti.software

/-- `encodeWav` of `encode.ts`: build the optional INFO entries, produce the
`data` payload for the chosen mode, and encode the RIFF container with
content `fmt `, `data`, and — when `wav.info` is set — the `LIST` chunk. -/
def encodeWav (wav : WaveFile) (mode : CodingMode) : Except String Bytes :=
  let infoEntries : Option Entries := wav.info.map buildEntries
  let content? : Except String Bytes :=
    match mode, wav.data with
    | .rawBlob, .blob b => .ok b
    | .rawBuffer, .buffer b => .ok b
    | .channelsFmt, .channels chs => convertToRaw wav.format chs false
    | .channelsFloat32, .channels chs => convertToRaw wav.format chs true
    | _, _ => .error modeMismatch
  match content? with
  | .error e => .error e
  | .ok content =>
    encodeRiff waveChunkId
      ⟨[87, 65, 86, 69],
        [.fmt wav.format, .data content] ++
          (match infoEntries with
           | some es => [.list [73, 78, 70, 79] es]
           | none => []),
        []⟩ waveCodec

def missingFmtError : String := "Missing 'fmt ' chunk in provided .wav file"

def missingDataError : String := "Missing 'data' chunk in provided .wav file"

def isFmtChunk : WaveRiffChunk → Bool
  | .fmt _ => true
  | _ => false

def isDataChunk : WaveRiffChunk → Bool
  | .data _ => true
  | _ => false

/-- `c.id == "LIST" && c.type == "INFO"`. -/
def isListInfo : WaveRiffChunk → Bool
  | .list t _ => t = [73, 78, 70, 79]
  | _ => false

/-- The `fmt ` record of a found fmt chunk (only fmt chunks carry the
`fmt ` id, so the default is unreachable). -/
def asFmt : WaveRiffChunk → WaveFormatChunk
  | .fmt f => f
  | _ => ⟨none, none, none, none, none, none⟩

/-- The payload of a found data chunk (only data chunks carry the `data`
id, so the default is unreachable). -/
def dataBytesOf : WaveRiffChunk → Bytes
  | .data b => b
  | _ => []

/-- `decodeWav` after the RIFF layer: require the `fmt ` chunk, then the
`data` chunk (each missing one is fatal, in that order), project the track
info from a `LIST`/`INFO` chunk if present, and produce the data in the
requested mode. -/
def wavFromFile (file : RiffFile WaveRiffChunk) (mode : CodingMode) :
    Except String WaveFile :=
  match file.content.find? isFmtChunk with
  | none => .error missingFmtError
  | some fchunk =>
    match file.content.find? isDataChunk with
    | none => .error missingDataError
    | some dchunk =>
      let format := asFmt fchunk
      let info : Option TrackInfo :=
        match file.content.find? isListInfo with
        | some (.list _ es) => some (projectTrack es)
        | _ => none
      match mode with
      | .rawBlob => .ok ⟨format, info, .blob (dataBytesOf dchunk)⟩
      | .rawBuffer => .ok ⟨format, info, .buffer (dataBytesOf dchunk)⟩
      | .channelsFmt =>
        match convertFromRaw format (dataBytesOf dchunk) false with
        | .error e => .error e
        | .ok chs => .ok ⟨format, info, .channels chs⟩
      | .channelsFloat32 =>
        match convertFromRaw format (dataBytesOf dchunk) true with
        | .error e => .error e
        | .ok chs => .ok ⟨format, info, .channels chs⟩

/-- `decodeWav` of `decode.ts`: the RIFF layer with the WAVE registry, then
the chunk checks and mode conversion. -/
def decodeWav (blob : Bytes) (mode : CodingMode) : Except String WaveFile :=
  match decodeRiff blob waveCodec true with
  | .error e => .error e
  | .ok file => wavFromFile file mode

/-! ### C8: required chunks and metadata default -/

theorem dtypeLookup_error_shape (af bits : Option Nat) (e : String)
    (h : dtypeLookup af bits = .error e) :
    e = typeErrorUndefined ∨ ∃ b, e = unsupportedBitsError b := by
  unfold dtypeLookup at h
  rcases af with _ | a
  · simp only at h
    left
    injection h with h2
    exact h2.symm
  · simp only at h
    split at h
    · rcases bits with _ | bv
      · simp only at h
        right
        refine ⟨none, ?_⟩
        injection h with h2
        exact h2.symm
      · simp only at h
        split at h
        · exact absurd h (by simp)
        · right
          refine ⟨some bv, ?_⟩
          injection h with h2
          exact h2.symm
    · left
      injection h with h2
      exact h2.symm

theorem unsupportedBits_head (b : Option Nat) :
    (unsupportedBitsError b).data.take 3 = ['U', 'n', 's'] := by
  unfold unsupportedBitsError
  rw [String.data_append, List.take_append_of_le_length (by decide)]
  decide

theorem convertFromRaw_error_ne (fc : WaveFormatChunk) (bytes : Bytes) (toF32 : Bool)
    (e : String) (h : convertFromRaw fc bytes toF32 = .error e) :
    e ≠ missingFmtError ∧ e ≠ missingDataError := by
  have hu : ∀ b : Option Nat,
      unsupportedBitsError b ≠ missingFmtError ∧ unsupportedBitsError b ≠ missingDataError := by
    intro b
    constructor <;> intro hx <;> {
      have h3 := unsupportedBits_head b
      rw [hx] at h3
      exact absurd h3 (by decide) }
  unfold convertFromRaw at h
  split at h
  next e0 heq =>
    injection h with h2
    subst h2
    rcases dtypeLookup_error_shape _ _ _ heq with h3 | ⟨b, h3⟩
    · subst h3; exact ⟨by decide, by decide⟩
    · subst h3; exact hu b
  next d heq =>
    split at h
    · split at h
      · injection h with h2; subst h2; exact ⟨by decide, by decide⟩
      · exact absurd h (by simp)
    · split at h
      · injection h with h2; subst h2; exact ⟨by decide, by decide⟩
      · split at h
        · split at h
          · exact absurd h (by simp)
          · injection h with h2; subst h2; exact ⟨by decide, by decide⟩
        · split at h
          · injection h with h2; subst h2; exact ⟨by decide, by decide⟩
          · exact absurd h (by simp)

/-- C8: `decodeWav`'s chunk requirements.  A decoded container without a
`fmt ` chunk fails naming `fmt `; one with a `fmt ` chunk but no `data`
chunk fails naming `data`; with both present, the missing-chunk errors can
no longer occur (whatever the mode and whatever else may fail); and with no
`LIST` chunk of subtype `INFO`, a successful decode carries `null` track
metadata. -/
theorem wav_missing_chunks_c8 (file : RiffFile WaveRiffChunk) (mode : CodingMode) :
    ((∀ c ∈ file.content, isFmtChunk c = false) →
      wavFromFile file mode = .error missingFmtError) ∧
    ((∃ c ∈ file.content, isFmtChunk c = true) →
      (∀ c ∈ file.content, isDataChunk c = false) →
      wavFromFile file mode = .error missingDataError) ∧
    ((∃ c ∈ file.content, isFmtChunk c = true) →
      (∃ c ∈ file.content, isDataChunk c = true) →
      wavFromFile file mode ≠ .error missingFmtError ∧
      wavFromFile file mode ≠ .error missingDataError) ∧
    ((∀ c ∈ file.content, isListInfo c = false) →
      ∀ w, wavFromFile file mode = .ok w → w.info = none) := by
  refine ⟨fun hno => ?_, fun hyes hno => ?_, fun hf hd => ?_, fun hno w hw => ?_⟩
  · have h1 : file.content.find? isFmtChunk = none :=
      List.find?_eq_none.mpr (by simpa using hno)
    unfold wavFromFile
    rw [h1]
  · obtain ⟨fc, hfc⟩ := Option.isSome_iff_exists.mp (List.find?_isSome.mpr hyes)
    have h1 : file.content.find? isDataChunk = none :=
      List.find?_eq_none.mpr (by simpa using hno)
    unfold wavFromFile
    rw [hfc, h1]
  · obtain ⟨fc, hfc⟩ := Option.isSome_iff_exists.mp (List.find?_isSome.mpr hf)
    obtain ⟨dc, hdc⟩ := Option.isSome_iff_exists.mp (List.find?_isSome.mpr hd)
    unfold wavFromFile
    rw [hfc, hdc]
    cases mode
    case rawBlob => exact ⟨by simp, by simp⟩
    case rawBuffer => exact ⟨by simp, by simp⟩
    case channelsFmt =>
      cases hcv : convertFromRaw (asFmt fc) (dataBytesOf dc) false with
      | error e =>
        have := convertFromRaw_error_ne _ _ _ _ hcv
        simp only [hcv]
        exact ⟨by simp [this.1], by simp [this.2]⟩
      | ok chs =>
        simp only [hcv]
        exact ⟨by simp, by simp⟩
    case channelsFloat32 =>
      cases hcv : convertFromRaw (asFmt fc) (dataBytesOf dc) true with
      | error e =>
        have := convertFromRaw_error_ne _ _ _ _ hcv
        simp only [hcv]
        exact ⟨by simp [this.1], by simp [this.2]⟩
      | ok chs =>
        simp only [hcv]
        exact ⟨by simp, by simp⟩
  · have h1 : file.content.find? isListInfo = none :=
      List.find?_eq_none.mpr (by simpa using hno)
    unfold wavFromFile at hw
    rcases hf2 : file.content.find? isFmtChunk with _ | fc
    · rw [hf2] at hw
      exact absurd hw (by simp)
    · rw [hf2] at hw
      rcases hd2 : file.content.find? isDataChunk with _ | dc
      · rw [hd2] at hw
        exact absurd hw (by simp)
      · rw [hd2, h1] at hw
        simp only at hw
        cases mode
        case rawBlob => injection hw with h2; rw [← h2]
        case rawBuffer => injection hw with h2; rw [← h2]
        case channelsFmt =>
          rcases hcv : convertFromRaw (asFmt fc) (dataBytesOf dc) false with e | chs
          · rw [hcv] at hw
            exact absurd hw (by simp)
          · rw [hcv] at hw
            injection hw with h2
            rw [← h2]
        case channelsFloat32 =>
          rcases hcv : convertFromRaw (asFmt fc) (dataBytesOf dc) true with e | chs
          · rw [hcv] at hw
            exact absurd hw (by simp)
          · rw [hcv] at hw
            injection hw with h2
            rw [← h2]

theorem wav_missing_chunks_c8_witness :
    wavFromFile ⟨[87, 65, 86, 69], [], []⟩ CodingMode.rawBlob = .error missingFmtError ∧
    wavFromFile ⟨[87, 65, 86, 69],
        [WaveRiffChunk.fmt ⟨none, none, none, none, none, none⟩], []⟩
      CodingMode.rawBlob = .error missingDataError ∧
    (wavFromFile ⟨[87, 65, 86, 69],
        [WaveRiffChunk.fmt ⟨none, none, none, none, none, none⟩,
         WaveRiffChunk.data [1, 2]], []⟩
      CodingMode.rawBlob ≠ .error missingFmtError ∧
     wavFromFile ⟨[87, 65, 86, 69],
        [WaveRiffChunk.fmt ⟨none, none, none, none, none, none⟩,
         WaveRiffChunk.data [1, 2]], []⟩
      CodingMode.rawBlob ≠ .error missingDataError) ∧
    (⟨⟨none, none, none, none, none, none⟩, none, WaveData.blob [1, 2]⟩ : WaveFile).info =
      none :=
  ⟨(wav_missing_chunks_c8 ⟨[87, 65, 86, 69], [], []⟩ CodingMode.rawBlob).1
      (by intro c hc; cases hc),
   (wav_missing_chunks_c8 ⟨[87, 65, 86, 69],
        [WaveRiffChunk.fmt ⟨none, none, none, none, none, none⟩], []⟩
      CodingMode.rawBlob).2.1
      ⟨_, List.mem_cons_self _ _, rfl⟩
      (by intro c hc
          rcases List.mem_cons.mp hc with h | h
          · subst h; rfl
          · cases h),
   (wav_missing_chunks_c8 ⟨[87, 65, 86, 69],
        [WaveRiffChunk.fmt ⟨none, none, none, none, none, none⟩,
         WaveRiffChunk.data [1, 2]], []⟩
      CodingMode.rawBlob).2.2.1
      ⟨_, List.mem_cons_self _ _, rfl⟩
      ⟨_, List.mem_cons_of_mem _ (List.mem_cons_self _ _), rfl⟩,
   (wav_missing_chunks_c8 ⟨[87, 65, 86, 69],
        [WaveRiffChunk.fmt ⟨none, none, none, none, none, none⟩,
         WaveRiffChunk.data [1, 2]], []⟩
      CodingMode.rawBlob).2.2.2
      (by intro c hc
          rcases List.mem_cons.mp hc with h | h
          · subst h; rfl
          · rcases List.mem_cons.mp h with h2 | h2
            · subst h2; rfl
            · cases h2)
      ⟨⟨none, none, none, none, none, none⟩, none, WaveData.blob [1, 2]⟩ rfl⟩

/-! ### C3: channel de-interleaving and normalization -/

theorem elemSize_pos (d : DKind) : 0 < elemSize d := by
  cases d <;> decide

theorem dtypeLookup_ok_of (a b : Nat) (d : DKind) (h : dtypes a b = some d) :
    dtypeLookup (some a) (some b) = .ok d := by
  have haf : a = 1 ∨ a = 3 := by
    by_contra hc
    push_neg at hc
    unfold dtypes at h
    rw [if_neg hc.1, if_neg hc.2] at h
    exact absurd h (by simp)
  unfold dtypeLookup
  dsimp only
  rw [if_pos haf]
  simp only [h]

theorem convertFromRaw_channels (fc : WaveFormatChunk) (af bits N k : Nat) (d : DKind)
    (toF32 : Bool)
    (haf : fc.audioFormat = some af) (hbits : fc.bitsPerChannel = some bits)
    (hch : fc.channels = some N) (hd : dtypes af bits = some d) (hN : 1 ≤ N)
    (bytes : Bytes) (hlen : bytes.length = k * N * elemSize d) :
    convertFromRaw fc bytes toF32 =
      .ok ((List.range N).map (fun ch => (List.range k).map (fun i =>
        normSample d toF32 ((bytesToElems d bytes).getD (i * N + ch) 0)))) := by
  have hes : 0 < elemSize d := elemSize_pos d
  have hmod1 : bytes.length % elemSize d = 0 := by
    rw [hlen]
    exact Nat.mul_mod_left _ _
  have heq2 : bytes.length = k * (elemSize d * N) := by rw [hlen]; ring
  have hmod2 : bytes.length % (elemSize d * N) = 0 := by
    rw [heq2]
    exact Nat.mul_mod_left _ _
  have hS : bytes.length / (elemSize d * N) = k := by
    rw [heq2]
    exact Nat.mul_div_cancel _ (Nat.mul_pos hes (by omega))
  unfold convertFromRaw
  rw [haf, hbits, dtypeLookup_ok_of af bits d hd]
  simp only [hch]
  rw [if_neg (not_not_intro hmod1), if_neg (by omega), if_neg (not_not_intro hmod2)]
  simp only [hS]

/-- C3: the conversion layer.  For a payload of `k * N` interleaved elements
of a supported `(audioFormat, bitsPerChannel)` row `d` and `N = channels`:
`channels-fmt` decoding yields `N` arrays of `k` raw elements each, channel
`ch` sample `i` being element `i*N + ch` unchanged; `channels-float32`
decoding applies `((raw - rawMin) / (rawMax - rawMin)) * 2 - 1` to the same
elements; and `channels-float32` encoding of `N` equal-length channels emits
the elements in the same `i*N + ch` interleaved order, each stored after the
inverse affine map `(p + 1) / 2 * (rawMax - rawMin) + rawMin`. -/
theorem wav_conversion_c3 (fc : WaveFormatChunk) (af bits N k : Nat) (d : DKind)
    (haf : fc.audioFormat = some af) (hbits : fc.bitsPerChannel = some bits)
    (hch : fc.channels = some N) (hd : dtypes af bits = some d) (hN : 1 ≤ N) :
    (∀ bytes : Bytes, bytes.length = k * N * elemSize d →
      convertFromRaw fc bytes false =
        .ok ((List.range N).map (fun ch => (List.range k).map (fun i =>
          (bytesToElems d bytes).getD (i * N + ch) 0)))) ∧
    (∀ bytes : Bytes, bytes.length = k * N * elemSize d →
      convertFromRaw fc bytes true =
        .ok ((List.range N).map (fun ch => (List.range k).map (fun i =>
          ((bytesToElems d bytes).getD (i * N + ch) 0 - rawMin d) /
            (rawMax d - rawMin d) * 2 - 1)))) ∧
    (∀ chs : List (List ℚ), chs.length = N → (∀ c ∈ chs, c.length = k) →
      convertToRaw fc chs true =
        .ok (List.flatten ((List.range (k * N)).map (fun j =>
          storeElem d (((chs.getD (j % N) []).getD (j / N) 0 + 1) / 2 *
            (rawMax d - rawMin d) + rawMin d))))) := by
  refine ⟨fun bytes hlen => ?_, fun bytes hlen => ?_, fun chs hLen hall => ?_⟩
  · rw [convertFromRaw_channels fc af bits N k d false haf hbits hch hd hN bytes hlen]
    simp [normSample]
  · rw [convertFromRaw_channels fc af bits N k d true haf hbits hch hd hN bytes hlen]
    simp [normSample]
  · rcases chs with _ | ⟨c0, rest⟩
    · exfalso
      rw [List.length_nil] at hLen
      omega
    · have hk : c0.length = k := hall c0 (List.mem_cons_self _ _)
      unfold convertToRaw
      rw [haf, hbits, dtypeLookup_ok_of af bits d hd]
      simp only [hch]
      rw [if_neg (by omega)]
      simp [convSample, hk]

theorem wav_conversion_c3_witness :
    (convertFromRaw ⟨some 1, some 2, none, none, none, some 8⟩ [1, 2, 3, 4] false =
      .ok ((List.range 2).map (fun ch => (List.range 2).map (fun i =>
        (bytesToElems DKind.u8 [1, 2, 3, 4]).getD (i * 2 + ch) 0)))) ∧
    (convertFromRaw ⟨some 1, some 2, none, none, none, some 8⟩ [1, 2, 3, 4] true =
      .ok ((List.range 2).map (fun ch => (List.range 2).map (fun i =>
        ((bytesToElems DKind.u8 [1, 2, 3, 4]).getD (i * 2 + ch) 0 - rawMin DKind.u8) /
          (rawMax DKind.u8 - rawMin DKind.u8) * 2 - 1)))) ∧
    (convertToRaw ⟨some 1, some 2, none, none, none, some 8⟩ [[0, 1], [1/2, 1/4]] true =
      .ok (List.flatten ((List.range (2 * 2)).map (fun j =>
        storeElem DKind.u8
          ((([[(0 : ℚ), 1], [1/2, 1/4]].getD (j % 2) []).getD (j / 2) 0 + 1) / 2 *
            (rawMax DKind.u8 - rawMin DKind.u8) + rawMin DKind.u8))))) :=
  ⟨(wav_conversion_c3 ⟨some 1, some 2, none, none, none, some 8⟩ 1 8 2 2 DKind.u8
      rfl rfl rfl (by decide) (by decide)).1 [1, 2, 3, 4] (by decide),
   (wav_conversion_c3 ⟨some 1, some 2, none, none, none, some 8⟩ 1 8 2 2 DKind.u8
      rfl rfl rfl (by decide) (by decide)).2.1 [1, 2, 3, 4] (by decide),
   (wav_conversion_c3 ⟨some 1, some 2, none, none, none, some 8⟩ 1 8 2 2 DKind.u8
      rfl rfl rfl (by decide) (by decide)).2.2 [[0, 1], [1/2, 1/4]] rfl
      (by intro c hc
          rcases List.mem_cons.mp hc with h | h
          · subst h; rfl
          · rcases List.mem_cons.mp h with h2 | h2
            · subst h2; rfl
            · cases h2)⟩

/-! ### C2: `channels-float32` round trip -/

theorem riffWalk_nil {α : Type} (codecs : CodecReg α) (fuel : Nat) :
    riffWalk codecs fuel 0 [] = .ok ([], []) := by
  cases fuel <;> simp [riffWalk]

theorem fmtEncode_length (f : WaveFormatChunk) : (fmtEncode f).length = 16 := by
  simp [fmtEncode, u16le, u32le]

theorem fmtDecode_ok16 (b0 b1 b2 b3 b4 b5 b6 b7 b8 b9 b10 b11 b12 b13 b14 b15 : Nat)
    (hor : b0 + 256 * b1 = 1 ∨ b0 + 256 * b1 = 3) :
    fmtDecode [b0, b1, b2, b3, b4, b5, b6, b7, b8, b9, b10, b11, b12, b13, b14, b15] =
      .ok ⟨some (b0 + 256 * b1), some (b2 + 256 * b3),
        some (b4 + 256 * b5 + 65536 * b6 + 16777216 * b7),
        some (b8 + 256 * b9 + 65536 * b10 + 16777216 * b11),
        some (b12 + 256 * b13), some (b14 + 256 * b15)⟩ := by
  have h1 : readU16Arr (sliceList
      [b0, b1, b2, b3, b4, b5, b6, b7, b8, b9, b10, b11, b12, b13, b14, b15] 0 4) =
      .ok [b0 + 256 * b1, b2 + 256 * b3] := by
    simp [readU16Arr, sliceList, u16chunks]
  have h2 : readU32Arr (sliceList
      [b0, b1, b2, b3, b4, b5, b6, b7, b8, b9, b10, b11, b12, b13, b14, b15] 4 12) =
      .ok [b4 + 256 * b5 + 65536 * b6 + 16777216 * b7,
        b8 + 256 * b9 + 65536 * b10 + 16777216 * b11] := by
    simp [readU32Arr, sliceList, u32chunks]
  have h3 : readU16Arr (sliceList
      [b0, b1, b2, b3, b4, b5, b6, b7, b8, b9, b10, b11, b12, b13, b14, b15] 12 16) =
      .ok [b12 + 256 * b13, b14 + 256 * b15] := by
    simp [readU16Arr, sliceList, u16chunks]
  simp only [fmtDecode, h1, h2, h3, List.getElem?_cons_zero, List.getElem?_cons_succ]
  rw [if_pos hor]

/-- Decoding an encoded `fmt ` record recovers the `audioFormat`, `channels`
and `bitsPerChannel` fields exactly (when in range), the other three wrapped
to their field widths with `undefined` stored as 0. -/
theorem fmtDecode_fmtEncode (af N bits : Nat) (sr br ba : Option Nat)
    (haf : af = 1 ∨ af = 3) (hN : N < 65536) (hbits : bits < 65536) :
    fmtDecode (fmtEncode ⟨some af, some N, sr, br, ba, some bits⟩) =
      .ok ⟨some af, some N, some (optNum sr % 4294967296), some (optNum br % 4294967296),
        some (optNum ba % 65536), some bits⟩ := by
  have hshape : fmtEncode ⟨some af, some N, sr, br, ba, some bits⟩ =
      [af % 256, af / 256 % 256, N % 256, N / 256 % 256,
       optNum sr % 256, optNum sr / 256 % 256, optNum sr / 65536 % 256,
         optNum sr / 16777216 % 256,
       optNum br % 256, optNum br / 256 % 256, optNum br / 65536 % 256,
         optNum br / 16777216 % 256,
       optNum ba % 256, optNum ba / 256 % 256, bits % 256, bits / 256 % 256] := by
    simp [fmtEncode, u16le, u32le, optNum]
  have hafv : af % 256 + 256 * (af / 256 % 256) = af := by
    rcases haf with h | h <;> subst h <;> decide
  have hNv : N % 256 + 256 * (N / 256 % 256) = N := by omega
  have hbitsv : bits % 256 + 256 * (bits / 256 % 256) = bits := by omega
  have hsrv : optNum sr % 256 + 256 * (optNum sr / 256 % 256) +
      65536 * (optNum sr / 65536 % 256) + 16777216 * (optNum sr / 16777216 % 256) =
      optNum sr % 4294967296 := by omega
  have hbrv : optNum br % 256 + 256 * (optNum br / 256 % 256) +
      65536 * (optNum br / 65536 % 256) + 16777216 * (optNum br / 16777216 % 256) =
      optNum br % 4294967296 := by omega
  have hbav : optNum ba % 256 + 256 * (optNum ba / 256 % 256) = optNum ba % 65536 := by
    omega
  rw [hshape, fmtDecode_ok16 _ _ _ _ _ _ _ _ _ _ _ _ _ _ _ _ (by rw [hafv]; exact haf)]
  rw [hafv, hNv, hbitsv, hsrv, hbrv, hbav]

/-- The symmetric helper to `convertFromRaw_channels`: encoding `N`
equal-length channels stores the interleaved quantized elements. -/
theorem convertToRaw_channels (fc : WaveFormatChunk) (af bits N k : Nat) (d : DKind)
    (fromF32 : Bool)
    (haf : fc.audioFormat = some af) (hbits : fc.bitsPerChannel = some bits)
    (hch : fc.channels = some N) (hd : dtypes af bits = some d) (hN : 1 ≤ N)
    (chs : List (List ℚ)) (hLen : chs.length = N) (hall : ∀ c ∈ chs, c.length = k) :
    convertToRaw fc chs fromF32 =
      .ok (List.flatten ((List.range (k * N)).map (fun j =>
        storeElem d (convSample d fromF32 ((chs.getD (j % N) []).getD (j / N) 0))))) := by
  rcases chs with _ | ⟨c0, rest⟩
  · exfalso
    rw [List.length_nil] at hLen
    omega
  · have hk : c0.length = k := hall c0 (List.mem_cons_self _ _)
    unfold convertToRaw
    rw [haf, hbits, dtypeLookup_ok_of af bits d hd]
    simp only [hch]
    rw [if_neg (by omega)]
    simp only [hk]

/-- `encodeWav` in `channels-float32` mode on a file with no track info:
the container is the header, the content size, `WAVE`, and the `fmt ` and
`data` records. -/
theorem encodeWav_channels (fc : WaveFormatChunk) (chs : List (List ℚ)) (db : Bytes)
    (hconv : convertToRaw fc chs true = .ok db) :
    encodeWav ⟨fc, none, .channels chs⟩ CodingMode.channelsFloat32 =
      .ok (riffTag ++ u32le (36 + db.length) ++
        ([87, 65, 86, 69] ++
          ([102, 109, 116, 32] ++ u32le 16 ++ fmtEncode fc ++
            ([100, 97, 116, 97] ++ u32le db.length ++ db)))) := by
  have hch : encodeChunksM waveChunkId waveCodec
      [WaveRiffChunk.fmt fc, WaveRiffChunk.data db] =
      .ok ([102, 109, 116, 32] ++ u32le 16 ++ fmtEncode fc ++
        ([100, 97, 116, 97] ++ u32le db.length ++ db ++ [])) := by
    simp only [encodeChunksM, waveChunkId]
    rw [if_neg (by norm_num), if_neg (by norm_num)]
    have h1 : waveCodec [102, 109, 116, 32] = some fmtCodec := rfl
    have h2 : waveCodec [100, 97, 116, 97] = some dataCodec := rfl
    simp only [h1, h2, fmtCodec, dataCodec, fmtEncode_length]
  unfold encodeWav
  dsimp only
  rw [hconv]
  dsimp only
  unfold encodeRiff
  rw [if_neg (by norm_num)]
  simp only [Option.map_none', List.append_nil, hch, encodeUnknowns]
  have hlen : (([87, 65, 86, 69] : Bytes) ++
      ([102, 109, 116, 32] ++ u32le 16 ++ fmtEncode fc ++
        ([100, 97, 116, 97] ++ u32le db.length ++ db))).length = 36 + db.length := by
    simp only [List.length_append, u32le_length, fmtEncode_length, List.length_cons,
      List.length_nil]
    omega
  rw [hlen]

/-- The chunk walk over a `fmt ` record followed by a `data` record. -/
theorem riffWalk_waveRecords (fb db : Bytes) (hfb : fb.length = 16)
    (hdb : db.length < 4294967296) (fuel : Nat) :
    riffWalk waveCodec (fuel + 1 + 1) 0
      ([102, 109, 116, 32] ++ u32le 16 ++ fb ++
        ([100, 97, 116, 97] ++ u32le db.length ++ db)) =
      match fmtDecode fb with
      | .error e => .error e
      | .ok f => .ok ([.fmt f, .data db], []) := by
  have h16 : (u32le 16 : Bytes) = u32le fb.length := by rw [hfb]
  rw [h16, riffWalk_step waveCodec [102, 109, 116, 32] fb
    ([100, 97, 116, 97] ++ u32le db.length ++ db) (fuel + 1) rfl (by omega)]
  have h1 : waveCodec [102, 109, 116, 32] = some fmtCodec := rfl
  rw [h1]
  rcases hfd : fmtDecode fb with e | f
  · simp only [fmtCodec, hfd]
  · simp only [fmtCodec, hfd]
    rw [show ([100, 97, 116, 97] ++ u32le db.length ++ db : Bytes) =
        [100, 97, 116, 97] ++ u32le db.length ++ db ++ [] from (List.append_nil _).symm,
      riffWalk_step waveCodec [100, 97, 116, 97] db [] fuel rfl hdb]
    have h2 : waveCodec [100, 97, 116, 97] = some dataCodec := rfl
    rw [h2]
    simp only [dataCodec, riffWalk_nil]

/-- Decoding the container `encodeWav` produces in the channel modes. -/
theorem decodeRiff_wave (fb db : Bytes) (hfb : fb.length = 16)
    (hsz : 36 + db.length < 4294967296) :
    decodeRiff (riffTag ++ u32le (36 + db.length) ++
        ([87, 65, 86, 69] ++ ([102, 109, 116, 32] ++ u32le 16 ++ fb ++
          ([100, 97, 116, 97] ++ u32le db.length ++ db)))) waveCodec true =
      match fmtDecode fb with
      | .error e => .error e
      | .ok f => .ok ⟨[87, 65, 86, 69], [.fmt f, .data db], []⟩ := by
  have hrl : (([102, 109, 116, 32] ++ u32le 16 ++ fb ++
      ([100, 97, 116, 97] ++ u32le db.length ++ db)) : Bytes).length = 32 + db.length := by
    simp [u32le_length, hfb]
    omega
  rw [show 36 + db.length = 4 + (([102, 109, 116, 32] ++ u32le 16 ++ fb ++
      ([100, 97, 116, 97] ++ u32le db.length ++ db)) : Bytes).length from by rw [hrl]; omega,
    decodeRiff_container waveCodec [87, 65, 86, 69]
      ([102, 109, 116, 32] ++ u32le 16 ++ fb ++
        ([100, 97, 116, 97] ++ u32le db.length ++ db)) rfl (by rw [hrl]; omega)]
  rw [show (([102, 109, 116, 32] ++ u32le 16 ++ fb ++
      ([100, 97, 116, 97] ++ u32le db.length ++ db)) : Bytes).length + 1 =
      31 + db.length + 1 + 1 from by rw [hrl]; omega,
    riffWalk_waveRecords fb db hfb (by omega) (31 + db.length)]
  rcases hfd : fmtDecode fb with e | f <;> simp only

/-- `wavFromFile` on the decoded two-chunk container, channel-float32 mode. -/
theorem wavFromFile_two (f : WaveFormatChunk) (db : Bytes) :
    wavFromFile ⟨[87, 65, 86, 69], [.fmt f, .data db], []⟩ CodingMode.channelsFloat32 =
      match convertFromRaw f db true with
      | .error e => .error e
      | .ok chs => .ok ⟨f, none, .channels chs⟩ := by
  unfold wavFromFile
  simp only [List.find?, isFmtChunk, isDataChunk, isListInfo, asFmt, dataBytesOf]

theorem getD_range_map {β : Type} (g : Nat → β) (M j : Nat) (d0 : β) (hj : j < M) :
    ((List.range M).map g).getD j d0 = g j := by
  rw [List.getD_eq_getElem?_getD, List.getElem?_map, List.getElem?_range hj]
  rfl

theorem sliceList_flatten_uniform (es : Nat) :
    ∀ (bs : List Bytes) (i : Nat), (∀ b ∈ bs, b.length = es) → i < bs.length →
      sliceList bs.flatten (i * es) ((i + 1) * es) = bs.getD i [] := by
  intro bs
  induction bs with
  | nil =>
    intro i _ hi
    exact absurd hi (by simp)
  | cons b0 rest ih =>
    intro i hlen hi
    have hb0 : b0.length = es := hlen b0 (by simp)
    cases i with
    | zero =>
      rw [List.flatten_cons, Nat.zero_mul, sliceList_zero_take, Nat.one_mul,
        List.getD_cons_zero]
      exact take_len b0 _ es hb0
    | succ i =>
      rw [List.flatten_cons,
        show (i + 1) * es = b0.length + i * es from by rw [hb0]; ring,
        show (i + 1 + 1) * es = b0.length + (i + 1) * es from by rw [hb0]; ring,
        sliceList_append, List.getD_cons_succ]
      exact ih i (fun b hb => hlen b (by simp [hb])) (by simpa using hi)

/-- Reading back a buffer assembled from `M` stored elements yields the
quantized values. -/
theorem bytesToElems_store (d : DKind) (f : Nat → ℚ) (M : Nat) :
    bytesToElems d (List.flatten ((List.range M).map (fun j => storeElem d (f j)))) =
      (List.range M).map (fun j => storeVal d (f j)) := by
  have hes := elemSize_pos d
  have hmaplen : ((List.range M).map (fun j => storeElem d (f j))).map List.length =
      (List.range M).map (fun _ => elemSize d) := by
    rw [List.map_map]
    exact List.map_congr_left (fun j _ => storeElem_length d (f j))
  have hlenb : (List.flatten ((List.range M).map (fun j => storeElem d (f j)))).length =
      M * elemSize d := by
    rw [List.length_flatten, hmaplen, List.map_const', List.sum_replicate,
      List.length_range, smul_eq_mul]
  unfold bytesToElems
  rw [hlenb, Nat.mul_div_cancel _ hes]
  apply List.map_congr_left
  intro i hi
  rw [List.mem_range] at hi
  rw [sliceList_flatten_uniform (elemSize d) _ i
      (by
        intro b hb
        obtain ⟨j, _, hj⟩ := List.mem_map.mp hb
        rw [← hj]
        exact storeElem_length d (f j))
      (by simpa using hi),
    getD_range_map _ M i [] hi, decodeElemBytes_storeElem]

theorem interleave_mod (i N ch : Nat) (h : ch < N) : (i * N + ch) % N = ch := by
  rw [Nat.mul_comm, Nat.mul_add_mod, Nat.mod_eq_of_lt h]

theorem interleave_div (i N ch : Nat) (h : ch < N) : (i * N + ch) / N = i := by
  rw [Nat.mul_comm, Nat.mul_add_div (by omega), Nat.div_eq_of_lt h, Nat.add_zero]

/-- Truncation toward zero moves a rational by strictly less than 1. -/
theorem ratTrunc_close (x : ℚ) : |((ratTrunc x : ℤ) : ℚ) - x| < 1 := by
  unfold ratTrunc
  split
  · have h1 := Int.floor_le x
    have h2 := Int.sub_one_lt_floor x
    rw [abs_lt]
    constructor <;> linarith
  · have h1 := Int.le_ceil x
    have h2 := Int.ceil_lt_add_one x
    rw [abs_lt]
    constructor <;> linarith

theorem ratTrunc_bounds (x : ℚ) (lo hi : ℤ) (hlo : (lo : ℚ) ≤ x) (hhi : x ≤ (hi : ℚ)) :
    lo ≤ ratTrunc x ∧ ratTrunc x ≤ hi := by
  unfold ratTrunc
  split
  · refine ⟨Int.le_floor.mpr hlo, ?_⟩
    have h1 := Int.floor_le x
    exact Int.cast_le.mp (h1.trans hhi)
  · refine ⟨?_, Int.ceil_le.mpr hhi⟩
    have h1 := Int.le_ceil x
    exact Int.cast_le.mp (hlo.trans h1)

/-- The reconstruction error of the affine normalization after the stored
value moved by less than 1. -/
theorem affine_close (rm D x t p : ℚ) (hD : 0 < D)
    (hx : x = (p + 1) / 2 * D + rm) (ht : |t - x| < 1) :
    |((t - rm) / D * 2 - 1) - p| < 2 / D := by
  have hp : (t - rm) / D * 2 - 1 - p = 2 * (t - x) / D := by
    subst hx
    field_simp
    ring
  rw [hp, abs_div, abs_of_pos hD, div_lt_div_iff₀ hD hD]
  have h2 : |2 * (t - x)| < 2 := by
    rw [abs_mul, abs_two]
    linarith [abs_nonneg (t - x)]
  exact mul_lt_mul_of_pos_right h2 hD

/-- The kinds whose typed arrays quantize by integer truncation. -/
def isIntKind : DKind → Bool
  | .u8 => true
  | .i16 => true
  | .i32 => true
  | _ => false

/-- Samples the round trip controls: within `[-1, 1]` for the integer kinds,
exactly representable at the storage width for the float kinds. -/
def SampleOK (d : DKind) (p : ℚ) : Prop :=
  if isIntKind d then -1 ≤ p ∧ p ≤ 1 else storeVal d p = p

/-- The per-sample round-trip guarantee: error under `2 / (rawMax - rawMin)`
for the integer kinds, exact reproduction for the float kinds. -/
def sampleClose (d : DKind) (pin pout : ℚ) : Prop :=
  if isIntKind d then |pout - pin| < 2 / (rawMax d - rawMin d) else pout = pin

theorem sample_roundtrip (d : DKind) (p : ℚ) (hok : SampleOK d p) :
    sampleClose d p (normSample d true (storeVal d (convSample d true p))) := by
  cases d
  case u8 =>
    have hp : (-1 : ℚ) ≤ p ∧ p ≤ 1 := hok
    have hx : convSample .u8 true p = (p + 1) / 2 * 255 + 0 := by
      unfold convSample
      simp only [eq_self_iff_true, if_true, rawMax, rawMin]
      ring
    have hxlo : (((0 : ℤ) : ℚ)) ≤ (p + 1) / 2 * 255 + 0 := by
      push_cast
      nlinarith [hp.1, hp.2]
    have hxhi : (p + 1) / 2 * 255 + 0 ≤ ((255 : ℤ) : ℚ) := by
      push_cast
      nlinarith [hp.1, hp.2]
    obtain ⟨htlo, hthi⟩ := ratTrunc_bounds _ 0 255 hxlo hxhi
    have hsv : storeVal .u8 (convSample .u8 true p) =
        ((ratTrunc ((p + 1) / 2 * 255 + 0) : ℤ) : ℚ) := by
      rw [hx]
      show ((ratTrunc ((p + 1) / 2 * 255 + 0) % 256 : ℤ) : ℚ) = _
      congr 1
      omega
    have hns : normSample .u8 true ((ratTrunc ((p + 1) / 2 * 255 + 0) : ℤ) : ℚ) =
        (((ratTrunc ((p + 1) / 2 * 255 + 0) : ℤ) : ℚ) - 0) / 255 * 2 - 1 := by
      unfold normSample
      simp only [eq_self_iff_true, if_true, rawMax, rawMin]
      norm_num
    have hbound : (2 : ℚ) / (rawMax .u8 - rawMin .u8) = 2 / 255 := by
      norm_num [rawMax, rawMin]
    show |normSample .u8 true (storeVal .u8 (convSample .u8 true p)) - p| <
      2 / (rawMax .u8 - rawMin .u8)
    rw [hsv, hns, hbound]
    exact affine_close 0 255 ((p + 1) / 2 * 255 + 0) _ p (by norm_num) rfl
      (ratTrunc_close _)
  case i16 =>
    have hp : (-1 : ℚ) ≤ p ∧ p ≤ 1 := hok
    have hx : convSample .i16 true p = (p + 1) / 2 * 65535 + -32768 := by
      unfold convSample
      simp only [eq_self_iff_true, if_true, rawMax, rawMin]
      ring
    have hxlo : (((-32768 : ℤ) : ℚ)) ≤ (p + 1) / 2 * 65535 + -32768 := by
      push_cast
      nlinarith [hp.1, hp.2]
    have hxhi : (p + 1) / 2 * 65535 + -32768 ≤ ((32767 : ℤ) : ℚ) := by
      push_cast
      nlinarith [hp.1, hp.2]
    obtain ⟨htlo, hthi⟩ := ratTrunc_bounds _ (-32768) 32767 hxlo hxhi
    have hsv : storeVal .i16 (convSample .i16 true p) =
        ((ratTrunc ((p + 1) / 2 * 65535 + -32768) : ℤ) : ℚ) := by
      rw [hx]
      show (((ratTrunc ((p + 1) / 2 * 65535 + -32768) + 32768) % 65536 - 32768 : ℤ) : ℚ) = _
      congr 1
      omega
    have hns : normSample .i16 true ((ratTrunc ((p + 1) / 2 * 65535 + -32768) : ℤ) : ℚ) =
        (((ratTrunc ((p + 1) / 2 * 65535 + -32768) : ℤ) : ℚ) - -32768) / 65535 * 2 - 1 := by
      unfold normSample
      simp only [eq_self_iff_true, if_true, rawMax, rawMin]
      norm_num
    have hbound : (2 : ℚ) / (rawMax .i16 - rawMin .i16) = 2 / 65535 := by
      norm_num [rawMax, rawMin]
    show |normSample .i16 true (storeVal .i16 (convSample .i16 true p)) - p| <
      2 / (rawMax .i16 - rawMin .i16)
    rw [hsv, hns, hbound]
    exact affine_close (-32768) 65535 ((p + 1) / 2 * 65535 + -32768) _ p (by norm_num) rfl
      (ratTrunc_close _)
  case i32 =>
    have hp : (-1 : ℚ) ≤ p ∧ p ≤ 1 := hok
    have hx : convSample .i32 true p = (p + 1) / 2 * 4294967295 + -2147483648 := by
      unfold convSample
      simp only [eq_self_iff_true, if_true, rawMax, rawMin]
      ring
    have hxlo : (((-2147483648 : ℤ) : ℚ)) ≤ (p + 1) / 2 * 4294967295 + -2147483648 := by
      push_cast
      nlinarith [hp.1, hp.2]
    have hxhi : (p + 1) / 2 * 4294967295 + -2147483648 ≤ ((2147483647 : ℤ) : ℚ) := by
      push_cast
      nlinarith [hp.1, hp.2]
    obtain ⟨htlo, hthi⟩ := ratTrunc_bounds _ (-2147483648) 2147483647 hxlo hxhi
    have hsv : storeVal .i32 (convSample .i32 true p) =
        ((ratTrunc ((p + 1) / 2 * 4294967295 + -2147483648) : ℤ) : ℚ) := by
      rw [hx]
      show (((ratTrunc ((p + 1) / 2 * 4294967295 + -2147483648) + 2147483648) % 4294967296 -
        2147483648 : ℤ) : ℚ) = _
      congr 1
      omega
    have hns : normSample .i32 true
        ((ratTrunc ((p + 1) / 2 * 4294967295 + -2147483648) : ℤ) : ℚ) =
        (((ratTrunc ((p + 1) / 2 * 4294967295 + -2147483648) : ℤ) : ℚ) - -2147483648) /
          4294967295 * 2 - 1 := by
      unfold normSample
      simp only [eq_self_iff_true, if_true, rawMax, rawMin]
      norm_num
    have hbound : (2 : ℚ) / (rawMax .i32 - rawMin .i32) = 2 / 4294967295 := by
      norm_num [rawMax, rawMin]
    show |normSample .i32 true (storeVal .i32 (convSample .i32 true p)) - p| <
      2 / (rawMax .i32 - rawMin .i32)
    rw [hsv, hns, hbound]
    exact affine_close (-2147483648) 4294967295 ((p + 1) / 2 * 4294967295 + -2147483648) _ p
      (by norm_num) rfl (ratTrunc_close _)
  case f16 =>
    have hsv : storeVal .f16 p = p := hok
    have hc : convSample .f16 true p = p := by
      unfold convSample
      simp only [eq_self_iff_true, if_true, rawMax, rawMin]
      ring
    show normSample .f16 true (storeVal .f16 (convSample .f16 true p)) = p
    rw [hc, hsv]
    unfold normSample
    simp only [eq_self_iff_true, if_true, rawMax, rawMin]
    ring
  case f32 =>
    have hsv : storeVal .f32 p = p := hok
    have hc : convSample .f32 true p = p := by
      unfold convSample
      simp only [eq_self_iff_true, if_true, rawMax, rawMin]
      ring
    show normSample .f32 true (storeVal .f32 (convSample .f32 true p)) = p
    rw [hc, hsv]
    unfold normSample
    simp only [eq_self_iff_true, if_true, rawMax, rawMin]
    ring
  case f64 =>
    have hsv : storeVal .f64 p = p := hok
    have hc : convSample .f64 true p = p := by
      unfold convSample
      simp only [eq_self_iff_true, if_true, rawMax, rawMin]
      ring
    show normSample .f64 true (storeVal .f64 (convSample .f64 true p)) = p
    rw [hc, hsv]
    unfold normSample
    simp only [eq_self_iff_true, if_true, rawMax, rawMin]
    ring

theorem flatten_store_length (d : DKind) (f : Nat → ℚ) (M : Nat) :
    (List.flatten ((List.range M).map (fun j => storeElem d (f j)))).length =
      M * elemSize d := by
  have hmaplen : ((List.range M).map (fun j => storeElem d (f j))).map List.length =
      (List.range M).map (fun _ => elemSize d) := by
    rw [List.map_map]
    exact List.map_congr_left (fun j _ => storeElem_length d (f j))
  rw [List.length_flatten, hmaplen, List.map_const', List.sum_replicate,
    List.length_range, smul_eq_mul]

theorem dtypes_fields (af bits : Nat) (d : DKind) (h : dtypes af bits = some d) :
    (af = 1 ∨ af = 3) ∧ bits < 65536 := by
  unfold dtypes at h
  by_cases h1 : af = 1
  · rw [if_pos h1] at h
    refine ⟨.inl h1, ?_⟩
    by_cases b8 : bits = 8
    · omega
    · rw [if_neg b8] at h
      by_cases b16 : bits = 16
      · omega
      · rw [if_neg b16] at h
        by_cases b32 : bits = 32
        · omega
        · rw [if_neg b32] at h
          exact absurd h (by simp)
  · rw [if_neg h1] at h
    by_cases h3 : af = 3
    · rw [if_pos h3] at h
      refine ⟨.inr h3, ?_⟩
      by_cases b16 : bits = 16
      · omega
      · rw [if_neg b16] at h
        by_cases b32 : bits = 32
        · omega
        · rw [if_neg b32] at h
          by_cases b64 : bits = 64
          · omega
          · rw [if_neg b64] at h
            exact absurd h (by simp)
    · rw [if_neg h3] at h
      exact absurd h (by simp)

/-- C2 (amended): for every supported `(audioFormat, bitsPerChannel)` row
`d`, channel count `1 ≤ N < 2^16`, any per-channel sample count `S`,
admissible samples (in `[-1, 1]` for the integer kinds, representable at the
storage width for the float kinds) and a container below the 32-bit size
limit, `decodeWav (encodeWav f) ` in `channels-float32` mode reproduces the
channel count and every per-channel sample count exactly, and every decoded
sample is within the quantization bound of the row: **strictly less than
`2 / (rawMax - rawMin)`** of the original for the integer kinds (for 16-bit
PCM `2/65535`, not the claimed `1/65536`, which the counterexample exceeds)
and exact for the float kinds. -/
theorem wav_roundtrip_c2 (af bits N S : Nat) (d : DKind) (sr br ba : Option Nat)
    (chs : List (List ℚ))
    (hd : dtypes af bits = some d)
    (hN1 : 1 ≤ N) (hN2 : N < 65536)
    (hchs : chs.length = N) (hSlen : ∀ c ∈ chs, c.length = S)
    (hok : ∀ c ∈ chs, ∀ p ∈ c, SampleOK d p)
    (hsize : 36 + S * N * elemSize d < 4294967296) :
    ∃ blob w chs',
      encodeWav ⟨⟨some af, some N, sr, br, ba, some bits⟩, none, .channels chs⟩
        CodingMode.channelsFloat32 = .ok blob ∧
      decodeWav blob CodingMode.channelsFloat32 = .ok w ∧
      w.data = .channels chs' ∧
      chs'.length = N ∧
      (∀ c ∈ chs', c.length = S) ∧
      (∀ ch, ch < N → ∀ i, i < S →
        sampleClose d ((chs.getD ch []).getD i 0) ((chs'.getD ch []).getD i 0)) := by
  obtain ⟨haf3, hbits⟩ := dtypes_fields af bits d hd
  have hconv := convertToRaw_channels ⟨some af, some N, sr, br, ba, some bits⟩
    af bits N S d true rfl rfl rfl hd hN1 chs hchs hSlen
  have hdblen : (List.flatten ((List.range (S * N)).map (fun j =>
      storeElem d (convSample d true ((chs.getD (j % N) []).getD (j / N) 0))))).length =
      S * N * elemSize d :=
    flatten_store_length d _ (S * N)
  have henc := encodeWav_channels ⟨some af, some N, sr, br, ba, some bits⟩ chs _ hconv
  have hfd := fmtDecode_fmtEncode af N bits sr br ba haf3 hN2 hbits
  have hdec := decodeRiff_wave (fmtEncode ⟨some af, some N, sr, br, ba, some bits⟩) _
    (fmtEncode_length _) (by rw [hdblen]; exact hsize)
  simp only [hfd] at hdec
  have hfrom := convertFromRaw_channels
    ⟨some af, some N, some (optNum sr % 4294967296), some (optNum br % 4294967296),
      some (optNum ba % 65536), some bits⟩
    af bits N S d true rfl rfl rfl hd hN1 _ hdblen
  have hwff := wavFromFile_two
    ⟨some af, some N, some (optNum sr % 4294967296), some (optNum br % 4294967296),
      some (optNum ba % 65536), some bits⟩
    (List.flatten ((List.range (S * N)).map (fun j =>
      storeElem d (convSample d true ((chs.getD (j % N) []).getD (j / N) 0)))))
  simp only [hfrom] at hwff
  have hbte := bytesToElems_store d
    (fun j => convSample d true ((chs.getD (j % N) []).getD (j / N) 0)) (S * N)
  refine ⟨_,
    ⟨⟨some af, some N, some (optNum sr % 4294967296), some (optNum br % 4294967296),
        some (optNum ba % 65536), some bits⟩, none,
      .channels ((List.range N).map (fun ch => (List.range S).map (fun i =>
        normSample d true ((bytesToElems d
          (List.flatten ((List.range (S * N)).map (fun j =>
            storeElem d (convSample d true ((chs.getD (j % N) []).getD (j / N) 0)))))).getD
          (i * N + ch) 0))))⟩,
    _, henc, ?_, rfl, by simp, ?_, ?_⟩
  · unfold decodeWav
    simp only [hdec]
    exact hwff
  · intro c hc
    obtain ⟨ch, _, rfl⟩ := List.mem_map.mp hc
    simp
  · intro ch hch i hi
    have hidx : i * N + ch < S * N := by
      have h1 : i * N + ch < (i + 1) * N := by
        have : (i + 1) * N = i * N + N := by ring
        omega
      have h2 : (i + 1) * N ≤ S * N := Nat.mul_le_mul_right N (by omega)
      omega
    rw [getD_range_map _ N ch [] hch, getD_range_map _ S i 0 hi, hbte,
      getD_range_map _ (S * N) (i * N + ch) 0 hidx, interleave_mod i N ch hch,
      interleave_div i N ch hch]
    apply sample_roundtrip
    have hmem : chs.getD ch [] ∈ chs := by
      rw [List.getD_eq_getElem chs [] (by omega)]
      exact List.getElem_mem _
    have hlen : (chs.getD ch []).length = S := hSlen _ hmem
    have hpmem : (chs.getD ch []).getD i 0 ∈ chs.getD ch [] := by
      rw [List.getD_eq_getElem (chs.getD ch []) 0 (by omega)]
      exact List.getElem_mem _
    exact hok _ hmem _ hpmem

theorem wav_roundtrip_c2_witness :
    ∃ blob w chs',
      encodeWav ⟨⟨some 1, some 1, none, none, none, some 16⟩, none, .channels [[0]]⟩
        CodingMode.channelsFloat32 = .ok blob ∧
      decodeWav blob CodingMode.channelsFloat32 = .ok w ∧
      w.data = .channels chs' ∧
      chs'.length = 1 ∧
      (∀ c ∈ chs', c.length = 1) ∧
      (∀ ch, ch < 1 → ∀ i, i < 1 →
        sampleClose DKind.i16 (([[(0 : ℚ)]].getD ch []).getD i 0)
          ((chs'.getD ch []).getD i 0)) :=
  wav_roundtrip_c2 1 16 1 1 DKind.i16 none none none [[0]] (by decide) (by decide)
    (by decide) rfl
    (by
      intro c hc
      rcases List.mem_cons.mp hc with h | h
      · subst h; rfl
      · cases h)
    (by
      intro c hc p hp
      rcases List.mem_cons.mp hc with h | h
      · subst h
        rcases List.mem_cons.mp hp with h2 | h2
        · subst h2
          exact ⟨by norm_num, by norm_num⟩
        · cases h2
      · cases h)
    (by decide)

/-- C2 is refuted at the claimed bound: a 16-bit PCM mono file with the
single sample `2/65535` encodes to a data payload storing raw value 0, which
decodes to `1/65535`; the error `1/65535` exceeds the claimed `1/65536`
quantization bound for 16-bit PCM. -/
theorem wav_roundtrip_cex_c2 :
    ∃ blob,
      encodeWav ⟨⟨some 1, some 1, some 44100, some 0, some 0, some 16⟩, none,
          .channels [[2/65535]]⟩ CodingMode.channelsFloat32 = .ok blob ∧
      decodeWav blob CodingMode.channelsFloat32 =
        .ok ⟨⟨some 1, some 1, some 44100, some 0, some 0, some 16⟩, none,
          .channels [[1/65535]]⟩ ∧
      ¬(|(1 : ℚ)/65535 - 2/65535| ≤ 1/65536) := by
  have hconv := convertToRaw_channels ⟨some 1, some 1, some 44100, some 0, some 0, some 16⟩
    1 16 1 1 .i16 true rfl rfl rfl (by decide) (by decide) [[2/65535]] rfl
    (by
      intro c hc
      rcases List.mem_cons.mp hc with h | h
      · subst h; rfl
      · cases h)
  have hcs : convSample .i16 true ((2 : ℚ)/65535) = 1/2 := by
    unfold convSample
    simp only [eq_self_iff_true, if_true, rawMax, rawMin]
    norm_num
  have hrt : ratTrunc (1/2 : ℚ) = 0 := by
    unfold ratTrunc
    rw [if_pos (by norm_num)]
    rw [Int.floor_eq_iff]
    constructor <;> norm_num
  have hr1 : List.range 1 = [0] := by decide
  have hdb : List.flatten ((List.range (1 * 1)).map (fun j =>
      storeElem .i16 (convSample .i16 true
        ((([[(2 : ℚ)/65535]]).getD (j % 1) []).getD (j / 1) 0)))) = [0, 0] := by
    simp only [show (1 : Nat) * 1 = 1 from rfl, hr1, List.map_cons, List.map_nil,
      Nat.zero_mod, Nat.zero_div, List.getD_cons_zero, List.flatten_cons, List.flatten_nil,
      List.append_nil, hcs]
    show natToBytesLE 2 ((ratTrunc (1/2 : ℚ) % 65536).toNat) = [0, 0]
    rw [hrt]
    rfl
  rw [hdb] at hconv
  have henc := encodeWav_channels ⟨some 1, some 1, some 44100, some 0, some 0, some 16⟩
    [[2/65535]] [0, 0] hconv
  have hfd := fmtDecode_fmtEncode 1 1 16 (some 44100) (some 0) (some 0)
    (.inl rfl) (by decide) (by decide)
  norm_num [optNum] at hfd
  have hdec := decodeRiff_wave (fmtEncode ⟨some 1, some 1, some 44100, some 0, some 0,
    some 16⟩) [0, 0] (fmtEncode_length _) (by norm_num)
  simp only [hfd] at hdec
  have hbe : bytesToElems .i16 [0, 0] = [0] := rfl
  have hfrom := convertFromRaw_channels
    ⟨some 1, some 1, some 44100, some 0, some 0, some 16⟩
    1 16 1 1 .i16 true rfl rfl rfl (by decide) (by decide) [0, 0] (by decide)
  have hout : (List.range 1).map (fun ch => (List.range 1).map (fun i =>
      normSample .i16 true ((bytesToElems .i16 [0, 0]).getD (i * 1 + ch) 0))) =
      [[(1 : ℚ)/65535]] := by
    simp only [hr1, List.map_cons, List.map_nil, hbe, Nat.zero_mul, Nat.zero_add,
      List.getD_cons_zero]
    unfold normSample
    simp only [eq_self_iff_true, if_true, rawMax, rawMin]
    norm_num
  rw [hout] at hfrom
  have hwff := wavFromFile_two
    ⟨some 1, some 1, some 44100, some 0, some 0, some 16⟩ [0, 0]
  simp only [hfrom] at hwff
  refine ⟨_, henc, ?_, ?_⟩
  · unfold decodeWav
    simp only [hdec]
    exact hwff
  · rw [show (1 : ℚ)/65535 - 2/65535 = -(1/65535) from by ring, abs_neg,
      abs_of_pos (by norm_num)]
    norm_num

end RiffWav
